import Mathlib

/-!
Verification of the `imcconv` IMC container reader against its specification.

The development shallowly embeds `src/imcconv/imcconv.py`:

* float32 values are modelled at two levels: raw 32-bit patterns (`Nat`,
  reduced `% 2 ^ 32` where relevant) for the byte decoder, and an exact value
  domain `Val` (NaN / signed infinity / exact rational) for everything the
  reshaping pipeline does with them.  The reshaping code performs no rounding
  float arithmetic (only selection of maxima, `+ 1`, one product, and integer
  truncation), so the exact value domain is faithful on the rational range the
  data model allows;
* `mmap`/`struct` byte handling becomes explicit `List Nat` manipulation;
* exceptions become `Except`/`Option` results.
-/

namespace Imcconv

/-- Exact model of an IEEE-754 value as the reshaping pipeline observes it:
not-a-number, a signed infinity, or an exact (finite) rational value. -/
inductive Val where
  | nan : Val
  | inf (neg : Bool) : Val
  | num (q : ℚ) : Val
deriving DecidableEq

/-- IEEE maximum of two values as `numpy.ndarray.max` reduces them:
NaN propagates, infinities compare in the usual order. -/
def fmax : Val → Val → Val
  | .nan, _ => .nan
  | _, .nan => .nan
  | .inf s, .inf t => .inf (s && t)
  | .inf s, .num q => if s then .num q else .inf false
  | .num q, .inf s => if s then .num q else .inf false
  | .num a, .num b => .num (max a b)

/-- IEEE addition at the value level (exact on finite values). -/
def fadd : Val → Val → Val
  | .nan, _ => .nan
  | _, .nan => .nan
  | .inf s, .inf t => if s = t then .inf s else .nan
  | .inf s, .num _ => .inf s
  | .num _, .inf t => .inf t
  | .num a, .num b => .num (a + b)

/-- IEEE multiplication at the value level (exact on finite values). -/
def fmul : Val → Val → Val
  | .nan, _ => .nan
  | _, .nan => .nan
  | .inf s, .inf t => .inf (s != t)
  | .inf s, .num q => if q = 0 then .nan else .inf (xor s (decide (q < 0)))
  | .num q, .inf s => if q = 0 then .nan else .inf (xor s (decide (q < 0)))
  | .num a, .num b => .num (a * b)

/-- Numeric disequality of a row count against an IEEE value
(`arr.shape[0] != nexpected`): NaN compares unequal to everything. -/
def valNeNat (n : Nat) : Val → Bool
  | .nan => true
  | .inf _ => true
  | .num q => decide (q ≠ (n : ℚ))

/-- C-style float-to-int cast (`.astype(int)`): truncation toward zero;
NaN and infinities have no defined integer image. -/
def truncVal : Val → Option Int
  | .nan => none
  | .inf _ => none
  | .num q => some (if q < 0 then ⌈q⌉ else ⌊q⌋)

/-- Column `j` of a row list (`arr[:, j]`). -/
def col (j : Nat) (rows : List (List Val)) : List Val :=
  rows.map (fun r => r.getD j (.num 0))

/-- Maximum reduction of a value list (`.max(axis=0)` on one column).
`numpy` raises on an empty axis; callers guard non-emptiness. -/
def vmaxList : List Val → Val
  | [] => .num 0
  | [v] => v
  | v :: rest => fmax v (vmaxList rest)

/-- `np.isnan` on one value (infinities are not NaN). -/
def isNanB : Val → Bool
  | .nan => true
  | _ => false

/-- `np.isnan(arr).sum() > 0`: some entry of the row list is NaN. -/
def hasNan (rows : List (List Val)) : Bool :=
  rows.any (fun r => r.any isNanB)

/-- Fuel-driven worker for `chunkList` (structural recursion so that concrete
instances reduce): with positive fuel and a non-empty list, peel off the next
chunk of `n` elements. -/
def chunkFuel : Nat → Nat → List α → List (List α)
  | 0, _, _ => []
  | _ + 1, _, [] => []
  | fuel + 1, n, a :: t => (a :: t.take (n - 1)) :: chunkFuel fuel n (t.drop (n - 1))

/-- Split a list into consecutive chunks of `n` elements (the final chunk may
be shorter); the shape buckets behind `reshape`. -/
def chunkList (n : Nat) (l : List α) : List (List α) :=
  if n = 0 then [] else chunkFuel l.length n l

/-- Embeds the tail of `_xyzc_to_arr` (src/imcconv/imcconv.py:29):
`arr[:, 3:].reshape((ysz, xsz, csz))`.  The channel block is flattened in row
order and regrouped; `reshape` fails unless the element count matches, and the
degenerate `csz = 0` shape (excluded by the record layout, which always has at
least the three coordinate columns plus the channels of the acquisition) is
modelled as failure as well. -/
def reshapeTail (arr : List (List Val)) (ysz xsz csz : Nat) :
    Option (List (List (List Val))) :=
  let flat := (arr.map (fun r => r.drop 3)).flatten
  if 0 < csz ∧ flat.length = ysz * (xsz * csz) then
    some (chunkList xsz (chunkList csz flat))
  else none

/-- Embeds `_xyzc_to_arr` (src/imcconv/imcconv.py:14-29).
`xsz, ysz = arr[:,:2].max(axis=0).astype(int) + 1`; `csz = arr.shape[1] - 3`;
if `xsz * ysz != arr.shape[0]` and a fill value is given, `np.vstack` appends
`xsz*ysz - arr.shape[0]` rows of the fill value (a negative count makes
`np.ones` raise, modelled as `none`, as is the undefined integer cast of a
NaN/infinite/negative coordinate maximum and the empty-input `max`). -/
def xyzc_to_arr (arr : List (List Val)) (fill_missing : Option Val) :
    Option (List (List (List Val))) :=
  if arr.isEmpty then none
  else
    match truncVal (vmaxList (col 0 arr)), truncVal (vmaxList (col 1 arr)) with
    | some tx, some ty =>
      if tx < 0 ∨ ty < 0 then none
      else
        let xsz := (tx + 1).toNat
        let ysz := (ty + 1).toNat
        let csz := (arr.headD []).length - 3
        if xsz * ysz ≠ arr.length ∧ fill_missing.isSome then
          if arr.length ≤ xsz * ysz then
            reshapeTail
              (arr ++ List.replicate (xsz * ysz - arr.length)
                (List.replicate (3 + csz) (fill_missing.getD (.num 0))))
              ysz xsz csz
          else none
        else reshapeTail arr ysz xsz csz
    | _, _ => none

/-- Embeds `_is_missing_values` (src/imcconv/imcconv.py:32-41):
`nexpected = (arr[:,0].max() + 1) * (arr[:,1].max() + 1)` and the data is
missing values when `arr.shape[0] != nexpected` or some entry is NaN. -/
def is_missing_values (arr : List (List Val)) : Bool :=
  let nexpected :=
    fmul (fadd (vmaxList (col 0 arr)) (.num 1)) (fadd (vmaxList (col 1 arr)) (.num 1))
  valNeNat arr.length nexpected || hasNan arr

/-- Error taxonomy of the reader (`ValueError` at the footer / reshape sites,
`NotImplementedError` at the format check, `struct.error`/`ValueError` at the
decode site). -/
inductive ReadErr where
  | unsupportedFormat (msg : String)
  | formatErr
  | incompleteData
  | reshapeFailed
deriving DecidableEq

/-- Embeds the reshape gate of `read_mcd` (src/imcconv/imcconv.py:86-89):
raise if `fill_missing is None and _is_missing_values(arr)`, otherwise run
`_xyzc_to_arr` (whose own failures surface as exceptions). -/
def reshapeChecked (arr : List (List Val)) (fill_missing : Option Val) :
    Except ReadErr (List (List (List Val))) :=
  if fill_missing.isNone && is_missing_values arr then .error .incompleteData
  else
    match xyzc_to_arr arr fill_missing with
    | some img => .ok img
    | none => .error .reshapeFailed

instance {ε α : Type _} [DecidableEq ε] [DecidableEq α] : DecidableEq (Except ε α) := fun x y =>
  match x, y with
  | .ok a, .ok b =>
    if h : a = b then isTrue (by rw [h]) else isFalse (fun hh => h (by cases hh; rfl))
  | .error e, .error f =>
    if h : e = f then isTrue (by rw [h]) else isFalse (fun hh => h (by cases hh; rfl))
  | .ok _, .error _ => isFalse (fun hh => by cases hh)
  | .error _, .ok _ => isFalse (fun hh => by cases hh)

/-! ### Raw record decoder -/

/-- `struct.unpack("f", raw[i:i+4])`: the 32-bit pattern held by four
little-endian bytes.  (Defined on the 4-byte chunks the decoder produces;
other shapes are unreachable behind the length guard.) -/
def bytesToF32 : List Nat → Nat
  | [b0, b1, b2, b3] => b0 + 256 * b1 + 65536 * b2 + 16777216 * b3
  | _ => 0

/-- The four little-endian bytes of a 32-bit pattern. -/
def f32ToBytes (p : Nat) : List Nat :=
  [p % 256, p / 256 % 256, p / 65536 % 256, p / 16777216 % 256]

/-- Exact value of a float32 bit pattern: sign / biased exponent / mantissa
fields, with NaN, signed infinity, subnormal and normal cases. -/
def interp (bits : Nat) : Val :=
  let s : Nat := bits / 2 ^ 31 % 2
  let e : Nat := bits / 2 ^ 23 % 2 ^ 8
  let m : Nat := bits % 2 ^ 23
  let sgn : Int := if s = 1 then -1 else 1
  if e = 255 then
    if m = 0 then .inf (s == 1) else .nan
  else if e = 0 then .num (mkRat (sgn * (m : Int)) (2 ^ 149))
  else .num (mkRat (sgn * ((2 ^ 23 + m : Nat) : Int) * (2 : Int) ^ e) (2 ^ 150))

/-- Structural (fuel-driven) base-2 logarithm, agreeing with `Nat.log2`. -/
def log2Fuel : Nat → Nat → Nat
  | 0, _ => 0
  | fuel + 1, n => if n < 2 then 0 else log2Fuel fuel (n / 2) + 1

/-- Position of the most significant bit (`Nat.log2`, in a form that reduces). -/
def natLog2 (n : Nat) : Nat := log2Fuel n n

/-- The float32 bit pattern of a natural number (exact for `n ≤ 2 ^ 24`). -/
def natToF32 (n : Nat) : Nat :=
  if n = 0 then 0
  else (natLog2 n + 127) * 2 ^ 23 + (n * 2 ^ 23 / 2 ^ natLog2 n - 2 ^ 23)

/-- Embeds the decode step of `read_mcd` (src/imcconv/imcconv.py:80-85):
seek to `DataStartOffset`, read `DataEndOffset - DataStartOffset` bytes,
unpack consecutive 4-byte little-endian floats (`struct.error` when the byte
count is not a multiple of 4) and `reshape((-1, w))` them into rows of `w`
floats (`ValueError` when the float count is not a multiple of `w`). -/
def decodeAcq (data : List Nat) (start stop w : Nat) :
    Except ReadErr (List (List Nat)) :=
  let raw := (data.drop start).take (stop - start)
  if raw.length % 4 ≠ 0 then .error .formatErr
  else
    let floats := (chunkList 4 raw).map bytesToF32
    if 0 < w ∧ floats.length % w = 0 then .ok (chunkList w floats)
    else .error .formatErr

/-! ### Acquisition catalog -/

/-- A channel record of the metadata document, after the XML fields are read
(`OrderNumber` via `int(...)`). -/
structure ChannelRec where
  acquisitionId : String
  channelName : String
  channelLabel : Option String
  orderNumber : Int
deriving DecidableEq

/-- An acquisition record of the metadata document.  `SegmentDataFormat` and
`ValueBytes` are compared as strings, exactly as the source does. -/
structure AcqRec where
  id : String
  dataStartOffset : Nat
  dataEndOffset : Nat
  segmentDataFormat : String
  valueBytes : String
deriving DecidableEq

/-- Embeds the channel selection of `read_mcd` (src/imcconv/imcconv.py:73-75):
keep the records whose `AcquisitionID` matches and whose `ChannelName` is not
one of `X`, `Y`, `Z`, then sort them by `OrderNumber` ascending.  Python's
`sorted` is a stable ascending sort by the key, which `List.insertionSort`
with the key order reproduces (stable sorts by the same key agree). -/
def channelsFor (chans : List ChannelRec) (id_ : String) : List ChannelRec :=
  List.insertionSort (fun a b => a.orderNumber ≤ b.orderNumber)
    (chans.filter (fun ch =>
      decide (ch.acquisitionId = id_ ∧
        ch.channelName ∉ (["X", "Y", "Z"] : List String))))

/-- Embeds the display-name computation (src/imcconv/imcconv.py:90-93):
`f"{ChannelName}_{ChannelLabel}"` when the label is present, else the name. -/
def displayName (c : ChannelRec) : String :=
  match c.channelLabel with
  | some label => c.channelName ++ "_" ++ label
  | none => c.channelName

/-- The message of the `NotImplementedError` raised for a non-float32
acquisition (src/imcconv/imcconv.py:79). -/
def unsupportedMsg : String := "Expected float32 data in 'SegmentDataFormat' tag."

/-- One emitted raster: image cells plus the channel axis labels. -/
structure RasterOut where
  img : List (List (List Val))
  channelNames : List String
deriving DecidableEq

/-- Embeds the per-acquisition body of `read_mcd`
(src/imcconv/imcconv.py:70-99): select and sort the channels, reject non-
float32 value encodings before touching the byte range, decode the byte
range into rows of `len(channels) + 3` floats, apply the missing-data gate,
reshape, and label the channel axis with the display names. -/
def processAcq (chans : List ChannelRec) (data : List Nat) (fill_missing : Option Val)
    (acq : AcqRec) : Except ReadErr RasterOut :=
  if acq.segmentDataFormat ≠ "Float" ∨ acq.valueBytes ≠ "4" then
    .error (.unsupportedFormat unsupportedMsg)
  else
    match decodeAcq data acq.dataStartOffset acq.dataEndOffset
        ((channelsFor chans acq.id).length + 3) with
    | .error e => .error e
    | .ok rows =>
      if fill_missing.isNone && is_missing_values (rows.map (fun r => r.map interp)) then
        .error .incompleteData
      else
        match xyzc_to_arr (rows.map (fun r => r.map interp)) fill_missing with
        | some img => .ok ⟨img, (channelsFor chans acq.id).map displayName⟩
        | none => .error .reshapeFailed

/-! ### Footer locator -/

/-- Backward scan (`mmap.rfind`): try offset `i`, then `i - 1`, … down to `0`;
return the first (i.e. greatest) offset where the pattern occurs. -/
def rfindAux (data pat : List Nat) : Nat → Option Nat
  | 0 => if pat.isPrefixOf data then some 0 else none
  | i + 1 =>
    if pat.isPrefixOf (data.drop (i + 1)) then some (i + 1) else rfindAux data pat i

/-- `mm.rfind(marker)`: the greatest offset at which `pat` occurs in `data`,
scanning backward from the end. -/
def rfindList (data pat : List Nat) : Option Nat :=
  rfindAux data pat data.length

/-- The text encodings the model distinguishes; the source's `encoding`
parameter defaults to `"utf-16-le"`. -/
inductive TextEnc where
  | utf16le
  | utf8
deriving DecidableEq

/-- `"<MCDPublic".encode(encoding)`: the marker byte sequence under each
encoding (the marker is pure ASCII, so UTF-16-LE interleaves zero bytes). -/
def markerBytes : TextEnc → List Nat
  | .utf8 => "<MCDPublic".toList.map Char.toNat
  | .utf16le => ("<MCDPublic".toList.map (fun c => [c.toNat % 256, c.toNat / 256])).flatten

/-- The constant tail of the footer-not-found message
(src/imcconv/imcconv.py:61). -/
def footerMissingTail : String :=
  "' does not contain MCDPublic XML footer (try different encoding?)."

/-- The footer-not-found `ValueError` message:
`f"'{str(path)}' does not contain MCDPublic XML footer (try different encoding?)."`. -/
def footerMissingMsg (path : String) : String :=
  "'" ++ path ++ footerMissingTail

/-- Embeds the footer locator of `read_mcd` (src/imcconv/imcconv.py:56-63):
`mm.rfind` of the encoded marker, a `ValueError` naming the path when absent,
otherwise the byte suffix from the found offset to end-of-file (which the
source then decodes with the same encoding and parses as the metadata XML). -/
def locateFooter (path : String) (data : List Nat) (encoding : TextEnc) :
    Except String (List Nat) :=
  match rfindList data (markerBytes encoding) with
  | none => .error (footerMissingMsg path)
  | some offset => .ok (data.drop offset)

/-! ### Side-car summary writer -/

/-- Python's `str.split(sep)` for a one-character separator: the chunks
between occurrences (always one more chunk than separators). -/
def splitOnChar (sep : Char) : List Char → List (List Char)
  | [] => [[]]
  | c :: cs =>
    match splitOnChar sep cs with
    | [] => [[]]
    | h :: t => if c = sep then [] :: h :: t else (c :: h) :: t

/-- Embeds the summary-row loop of `write_ometiff`
(src/imcconv/imcconv.py:144-152): for each channel display name, the tuple
unpacking `channel, label = name.split("_")` succeeds only when the split has
exactly two parts; any other shape raises `ValueError` before a row is
produced. -/
def summaryRows : List (List Char) → Except Unit (List (List Char × List Char))
  | [] => .ok []
  | nm :: rest =>
    match splitOnChar '_' nm with
    | [channel, label] =>
      match summaryRows rest with
      | .ok rows => .ok ((channel, label) :: rows)
      | .error e => .error e
    | _ => .error ()

/-- Bool-valued substring occurrence, used to state what an error message
"names". -/
def subOcc (pat s : List Char) : Bool :=
  (List.range (s.length + 1)).any (fun i => pat.isPrefixOf (s.drop i))

/-! ### Encoding a grid into the raw row layout (for the round-trip claim)

The container stores each pixel as the float32 row `[x, y, z, c1..cN]`
(spec §6); the following functions build that layout for a known grid of
channel bit patterns, row-major over `(y, x)`, with `z = 0`. -/

/-- The raw row `[x, y, z, c1..cN]` of one pixel, as float32 bit patterns. -/
def rowOfCell (x y : Nat) (cell : List Nat) : List Nat :=
  natToF32 x :: natToF32 y :: natToF32 0 :: cell

/-- Rows of one grid line `y`, for consecutive `x` starting at `x0`. -/
def rowsOfLineAux (y x0 : Nat) : List (List Nat) → List (List Nat)
  | [] => []
  | cell :: rest => rowOfCell x0 y cell :: rowsOfLineAux y (x0 + 1) rest

/-- Rows of a whole grid, for consecutive `y` starting at `y0`. -/
def gridRowsAux (y0 : Nat) : List (List (List Nat)) → List (List Nat)
  | [] => []
  | line :: rest => rowsOfLineAux y0 0 line ++ gridRowsAux (y0 + 1) rest

/-- The record rows of a grid (`grid[y][x]` is the channel vector of pixel
`(x, y)`), in row-major `(y, x)` order. -/
def encodeGridRows (g : List (List (List Nat))) : List (List Nat) :=
  gridRowsAux 0 g

/-- The raw bytes of a grid: each row's float32 patterns, each as four
little-endian bytes, concatenated with no padding. -/
def encodeGrid (g : List (List (List Nat))) : List Nat :=
  ((encodeGridRows g).map (fun r => r.flatMap f32ToBytes)).flatten

/-! ## Helper lemmas: chunking -/

theorem chunkFuel_nil (fuel n : Nat) : chunkFuel fuel n ([] : List α) = [] := by
  cases fuel <;> rfl

theorem chunkFuel_congr (f1 : Nat) : ∀ (f2 n : Nat) (l : List α),
    l.length ≤ f1 → l.length ≤ f2 → chunkFuel f1 n l = chunkFuel f2 n l := by
  induction f1 with
  | zero =>
    intro f2 n l h1 _
    have hl : l = [] := List.length_eq_zero.mp (Nat.le_zero.mp h1)
    subst hl
    simp [chunkFuel_nil]
  | succ f ih =>
    intro f2 n l h1 h2
    cases l with
    | nil => simp [chunkFuel_nil]
    | cons a t =>
      cases f2 with
      | zero => simp at h2
      | succ g =>
        simp only [chunkFuel, List.cons.injEq, true_and]
        apply ih
        · have := List.length_drop (n - 1) t
          simp only [List.length_cons] at h1
          omega
        · have := List.length_drop (n - 1) t
          simp only [List.length_cons] at h2
          omega

theorem chunkList_nil (n : Nat) : chunkList n ([] : List α) = [] := by
  unfold chunkList
  split <;> simp [chunkFuel_nil]

theorem chunkList_cons (n : Nat) (hn : 0 < n) (a : α) (t : List α) :
    chunkList n (a :: t) = (a :: t.take (n - 1)) :: chunkList n (t.drop (n - 1)) := by
  unfold chunkList
  rw [if_neg (by omega), if_neg (by omega)]
  simp only [List.length_cons, chunkFuel, List.cons.injEq, true_and]
  apply chunkFuel_congr
  · have := List.length_drop (n - 1) t
    omega
  · exact Nat.le_refl _

theorem flatten_chunkFuel (n : Nat) (hn : 0 < n) : ∀ (fuel : Nat) (l : List α),
    l.length ≤ fuel → (chunkFuel fuel n l).flatten = l := by
  intro fuel
  induction fuel with
  | zero =>
    intro l h
    have hl : l = [] := List.length_eq_zero.mp (Nat.le_zero.mp h)
    subst hl
    rfl
  | succ f ih =>
    intro l h
    cases l with
    | nil => rfl
    | cons a t =>
      simp only [chunkFuel, List.flatten_cons]
      rw [ih (t.drop (n - 1)) (by have := List.length_drop (n - 1) t; simp at h; omega)]
      simp [List.take_append_drop]

theorem flatten_chunkList (n : Nat) (hn : 0 < n) (l : List α) :
    (chunkList n l).flatten = l := by
  unfold chunkList
  rw [if_neg (by omega)]
  exact flatten_chunkFuel n hn l.length l (Nat.le_refl _)

theorem chunkList_flatten (n : Nat) (hn : 0 < n) : ∀ (rows : List (List α)),
    (∀ r ∈ rows, r.length = n) → chunkList n rows.flatten = rows := by
  intro rows
  induction rows with
  | nil =>
    intro _
    simpa using chunkList_nil n
  | cons r rest ih =>
    intro h
    have hr : r.length = n := h r (List.mem_cons_self r rest)
    cases r with
    | nil => simp at hr; omega
    | cons a t =>
      have ht : t.length = n - 1 := by simp at hr; omega
      simp only [List.flatten_cons, List.cons_append]
      rw [chunkList_cons n hn]
      have htake : (t ++ rest.flatten).take (n - 1) = t := by
        rw [← ht]
        exact List.take_left t rest.flatten
      have hdrop : (t ++ rest.flatten).drop (n - 1) = rest.flatten := by
        rw [← ht]
        exact List.drop_left t rest.flatten
      rw [htake, hdrop, ih (fun r hrm => h r (List.mem_cons_of_mem _ hrm))]

theorem chunkFuel_uniform (n : Nat) (hn : 0 < n) : ∀ (fuel : Nat) (l : List α),
    l.length ≤ fuel → n ∣ l.length → ∀ c ∈ chunkFuel fuel n l, c.length = n := by
  intro fuel
  induction fuel with
  | zero =>
    intro l h _ c hc
    have hl : l = [] := List.length_eq_zero.mp (Nat.le_zero.mp h)
    subst hl
    simp [chunkFuel_nil] at hc
  | succ f ih =>
    intro l h hd c hc
    cases l with
    | nil => simp [chunkFuel_nil] at hc
    | cons a t =>
      have hlen : n ≤ t.length + 1 := by
        rcases hd with ⟨k, hk⟩
        simp only [List.length_cons] at hk
        rcases k with _ | k
        · omega
        · have : n * 1 ≤ n * (k + 1) := Nat.mul_le_mul_left n (by omega)
          omega
      simp only [chunkFuel, List.mem_cons] at hc
      rcases hc with hc | hc
      · subst hc
        simp only [List.length_cons, List.length_take]
        simp only [List.length_cons] at hlen
        omega
      · refine ih (t.drop (n - 1)) ?_ ?_ c hc
        · have := List.length_drop (n - 1) t
          simp only [List.length_cons] at h
          omega
        · rcases hd with ⟨k, hk⟩
          simp only [List.length_cons] at hk
          refine ⟨k - 1, ?_⟩
          rw [List.length_drop]
          rcases k with _ | k
          · omega
          · have : n * (k + 1) = n * k + n := by ring
            simp only [Nat.succ_sub_one]
            omega

theorem chunkList_uniform (n : Nat) (hn : 0 < n) (l : List α) (hd : n ∣ l.length) :
    ∀ c ∈ chunkList n l, c.length = n := by
  unfold chunkList
  rw [if_neg (by omega)]
  exact chunkFuel_uniform n hn l.length l (Nat.le_refl _) hd

theorem length_flatten_uniform (n : Nat) : ∀ (L : List (List α)),
    (∀ c ∈ L, c.length = n) → L.flatten.length = L.length * n := by
  intro L
  induction L with
  | nil => simp
  | cons c rest ih =>
    intro h
    simp only [List.flatten_cons, List.length_append, List.length_cons,
      h c (List.mem_cons_self c rest), ih (fun d hd => h d (List.mem_cons_of_mem _ hd))]
    ring

theorem chunkList_length_mul (n : Nat) (hn : 0 < n) (l : List α) (hd : n ∣ l.length) :
    (chunkList n l).length * n = l.length := by
  conv_rhs => rw [← flatten_chunkList n hn l]
  exact (length_flatten_uniform n (chunkList n l) (chunkList_uniform n hn l hd)).symm

/-! ## Helper lemmas: column maxima and truncation -/

theorem vmaxList_cons_cons (v w : Val) (t : List Val) :
    vmaxList (v :: w :: t) = fmax v (vmaxList (w :: t)) := rfl

theorem fmax_num_num (a b : ℚ) : fmax (.num a) (.num b) = .num (max a b) := rfl

/-- Maximum of a non-empty list of natural values: it is attained and bounds
every member. -/
theorem vmax_nat : ∀ (l : List Val), l ≠ [] →
    (∀ v ∈ l, ∃ n : ℕ, v = Val.num (n : ℚ)) →
    ∃ m : ℕ, vmaxList l = Val.num (m : ℚ) ∧ Val.num (m : ℚ) ∈ l ∧
      ∀ k : ℕ, Val.num (k : ℚ) ∈ l → k ≤ m := by
  intro l
  induction l with
  | nil => intro h; exact absurd rfl h
  | cons v t ih =>
    intro _ h
    obtain ⟨a, ha⟩ := h v (List.mem_cons_self v t)
    cases t with
    | nil =>
      refine ⟨a, by simp [vmaxList, ha], by simp [ha], ?_⟩
      intro k hk
      simp only [List.mem_cons, List.not_mem_nil, or_false] at hk
      rw [ha] at hk
      have : (k : ℚ) = (a : ℚ) := Val.num.inj hk
      exact_mod_cast this.le
    | cons w t' =>
      obtain ⟨m, hm, hmem, hbd⟩ :=
        ih (List.cons_ne_nil w t') (fun v hv => h v (List.mem_cons_of_mem _ hv))
      refine ⟨max a m, ?_, ?_, ?_⟩
      · rw [vmaxList_cons_cons, hm, ha, fmax_num_num, Nat.cast_max]
      · rcases Nat.le_total a m with hle | hle
        · rw [Nat.max_eq_right hle]
          exact List.mem_cons_of_mem _ hmem
        · rw [Nat.max_eq_left hle, ← ha]
          exact List.mem_cons_self _ _
      · intro k hk
        rcases List.mem_cons.mp hk with hk | hk
        · rw [ha] at hk
          have hka : (k : ℚ) = (a : ℚ) := Val.num.inj hk
          have : k = a := by exact_mod_cast hka
          omega
        · have := hbd k hk
          omega

theorem truncVal_natCast (n : ℕ) : truncVal (Val.num (n : ℚ)) = some (n : ℤ) := by
  simp only [truncVal]
  rw [if_neg (not_lt.mpr (Nat.cast_nonneg n)), Int.floor_natCast]

/-! ## Helper lemmas: `xyzc_to_arr` characterization -/

/-- Channel width read off the first row equals `csz` for a rectangular
stream. -/
theorem headD_width (rows : List (List Val)) (csz : Nat) (hne : rows ≠ [])
    (hrect : ∀ r ∈ rows, r.length = 3 + csz) :
    (rows.headD []).length - 3 = csz := by
  cases rows with
  | nil => exact absurd rfl hne
  | cons r t =>
    simp only [List.headD_cons]
    rw [hrect r (List.mem_cons_self r t)]
    omega

/-- `reshapeTail` on a rectangular stream of the expected row count is the
input rows' channel tails, regrouped into raster lines of `xsz` cells. -/
theorem reshapeTail_eq (rows : List (List Val)) (ysz xsz csz : Nat)
    (hrect : ∀ r ∈ rows, r.length = 3 + csz) (hc : 0 < csz)
    (hcount : rows.length = xsz * ysz) :
    reshapeTail rows ysz xsz csz
      = some (chunkList xsz (rows.map (fun r => r.drop 3))) := by
  have hdrop : ∀ c ∈ rows.map (fun r => r.drop 3), c.length = csz := by
    intro c hc'
    rcases List.mem_map.mp hc' with ⟨r, hr, rfl⟩
    rw [List.length_drop, hrect r hr]
    omega
  have hflat : (rows.map (fun r => r.drop 3)).flatten.length = ysz * (xsz * csz) := by
    rw [length_flatten_uniform csz _ hdrop, List.length_map, hcount]
    ring
  simp only [reshapeTail, if_pos (And.intro hc hflat)]
  rw [chunkList_flatten csz hc _ hdrop]

/-- `_xyzc_to_arr` on a complete rectangular stream (row count equal to the
expected grid size): no padding happens, for either fill policy, and the
raster is the channel tails of the input rows in input order, grouped into
lines of `maxX + 1` cells. -/
theorem xyzc_to_arr_complete (rows : List (List Val)) (csz mx my : ℕ)
    (fill : Option Val) (hne : rows ≠ [])
    (hrect : ∀ r ∈ rows, r.length = 3 + csz) (hc : 0 < csz)
    (hmx : vmaxList (col 0 rows) = Val.num (mx : ℚ))
    (hmy : vmaxList (col 1 rows) = Val.num (my : ℚ))
    (hcount : rows.length = (mx + 1) * (my + 1)) :
    xyzc_to_arr rows fill
      = some (chunkList (mx + 1) (rows.map (fun r => r.drop 3))) := by
  have hempty : rows.isEmpty = false := by
    cases rows with
    | nil => exact absurd rfl hne
    | cons a t => rfl
  simp only [xyzc_to_arr, hempty, Bool.false_eq_true, if_false, hmx, hmy,
    truncVal_natCast]
  rw [if_neg (by omega)]
  have hx : ((mx : ℤ) + 1).toNat = mx + 1 := by omega
  have hy : ((my : ℤ) + 1).toNat = my + 1 := by omega
  rw [hx, hy, headD_width rows csz hne hrect]
  rw [if_neg (by rw [hcount]; simp)]
  exact reshapeTail_eq rows (my + 1) (mx + 1) csz hrect hc hcount

/-- `_xyzc_to_arr` on an under-reported stream with a fill value: the fill
rows are appended after the input rows, and the raster is the padded rows'
channel tails in that order. -/
theorem xyzc_to_arr_pad (rows : List (List Val)) (csz mx my : ℕ) (f : Val)
    (hne : rows ≠ [])
    (hrect : ∀ r ∈ rows, r.length = 3 + csz) (hc : 0 < csz)
    (hmx : vmaxList (col 0 rows) = Val.num (mx : ℚ))
    (hmy : vmaxList (col 1 rows) = Val.num (my : ℚ))
    (hlt : rows.length < (mx + 1) * (my + 1)) :
    xyzc_to_arr rows (some f)
      = some (chunkList (mx + 1)
          ((rows ++ List.replicate ((mx + 1) * (my + 1) - rows.length)
              (List.replicate (3 + csz) f)).map (fun r => r.drop 3))) := by
  have hempty : rows.isEmpty = false := by
    cases rows with
    | nil => exact absurd rfl hne
    | cons a t => rfl
  simp only [xyzc_to_arr, hempty, Bool.false_eq_true, if_false, hmx, hmy,
    truncVal_natCast]
  rw [if_neg (by omega)]
  have hx : ((mx : ℤ) + 1).toNat = mx + 1 := by omega
  have hy : ((my : ℤ) + 1).toNat = my + 1 := by omega
  rw [hx, hy, headD_width rows csz hne hrect]
  rw [if_pos (show (mx + 1) * (my + 1) ≠ rows.length ∧ (some f).isSome = true from
    ⟨by omega, rfl⟩)]
  rw [if_pos (by omega)]
  set padded := rows ++ List.replicate ((mx + 1) * (my + 1) - rows.length)
    (List.replicate (3 + csz) f) with hpadded
  have hprect : ∀ r ∈ padded, r.length = 3 + csz := by
    intro r hr
    rcases List.mem_append.mp hr with hr | hr
    · exact hrect r hr
    · rw [List.eq_of_mem_replicate hr]
      simp
  have hpcount : padded.length = (mx + 1) * (my + 1) := by
    simp only [hpadded, List.length_append, List.length_replicate]
    omega
  exact reshapeTail_eq padded (my + 1) (mx + 1) csz hprect hc hpcount

/-- `_xyzc_to_arr` on an over-reported stream with a fill value: the
synthesized padding count is negative, so `np.ones` fails. -/
theorem xyzc_to_arr_over (rows : List (List Val)) (mx my : ℕ) (f : Val)
    (hne : rows ≠ [])
    (hmx : vmaxList (col 0 rows) = Val.num (mx : ℚ))
    (hmy : vmaxList (col 1 rows) = Val.num (my : ℚ))
    (hgt : (mx + 1) * (my + 1) < rows.length) :
    xyzc_to_arr rows (some f) = none := by
  have hempty : rows.isEmpty = false := by
    cases rows with
    | nil => exact absurd rfl hne
    | cons a t => rfl
  simp only [xyzc_to_arr, hempty, Bool.false_eq_true, if_false, hmx, hmy,
    truncVal_natCast]
  rw [if_neg (by omega)]
  have hx : ((mx : ℤ) + 1).toNat = mx + 1 := by omega
  have hy : ((my : ℤ) + 1).toNat = my + 1 := by omega
  rw [hx, hy]
  rw [if_pos (show (mx + 1) * (my + 1) ≠ rows.length ∧ (some f).isSome = true from
    ⟨by omega, rfl⟩)]
  rw [if_neg (by omega)]

/-! ## Helper lemmas: the missing-data check and the reshape gate -/

theorem is_missing_of_hasNan (rows : List (List Val)) (h : hasNan rows = true) :
    is_missing_values rows = true := by
  simp [is_missing_values, h]

theorem fadd_num_one (a : ℚ) : fadd (Val.num a) (Val.num 1) = Val.num (a + 1) := rfl

theorem fmul_num_num (a b : ℚ) : fmul (Val.num a) (Val.num b) = Val.num (a * b) := rfl

/-- The expected-count product computed by `_is_missing_values`, as an exact
natural number, for a stream whose column maxima are natural. -/
theorem nexpected_eq (rows : List (List Val)) (mx my : ℕ)
    (hmx : vmaxList (col 0 rows) = Val.num (mx : ℚ))
    (hmy : vmaxList (col 1 rows) = Val.num (my : ℚ)) :
    fmul (fadd (vmaxList (col 0 rows)) (.num 1)) (fadd (vmaxList (col 1 rows)) (.num 1))
      = Val.num (((mx + 1) * (my + 1) : ℕ) : ℚ) := by
  rw [hmx, hmy, fadd_num_one, fadd_num_one, fmul_num_num]
  push_cast
  ring_nf

theorem is_missing_of_count_ne (rows : List (List Val)) (mx my : ℕ)
    (hmx : vmaxList (col 0 rows) = Val.num (mx : ℚ))
    (hmy : vmaxList (col 1 rows) = Val.num (my : ℚ))
    (hcnt : rows.length ≠ (mx + 1) * (my + 1)) :
    is_missing_values rows = true := by
  simp only [is_missing_values, nexpected_eq rows mx my hmx hmy, valNeNat,
    Bool.or_eq_true, decide_eq_true_eq]
  left
  intro h
  exact hcnt (by exact_mod_cast h.symm)

theorem is_missing_false (rows : List (List Val)) (mx my : ℕ)
    (hmx : vmaxList (col 0 rows) = Val.num (mx : ℚ))
    (hmy : vmaxList (col 1 rows) = Val.num (my : ℚ))
    (hcnt : rows.length = (mx + 1) * (my + 1))
    (hnan : hasNan rows = false) :
    is_missing_values rows = false := by
  simp only [is_missing_values, nexpected_eq rows mx my hmx hmy, valNeNat, hnan,
    Bool.or_false, decide_eq_false_iff_not, not_not]
  exact_mod_cast hcnt.symm

theorem reshapeChecked_none_of_missing (rows : List (List Val))
    (h : is_missing_values rows = true) :
    reshapeChecked rows none = .error .incompleteData := by
  simp [reshapeChecked, h]

theorem reshapeChecked_some_fill (rows : List (List Val)) (f : Val) :
    reshapeChecked rows (some f)
      = match xyzc_to_arr rows (some f) with
        | some img => .ok img
        | none => .error .reshapeFailed := by
  simp [reshapeChecked]

/-! ## Claims C1, C2, C9: the grid reshaper -/

/-- C1 (counterexample): the two reshapes of a valid, complete two-row
stream — one row at `(x, y) = (1, 0)` carrying value `10`, one at `(0, 0)`
carrying `20` — in its two orders.  The input rows are a permutation of each
other, yet the rasters differ cell-for-cell: placement follows the row's
position in the input, not its `(x, y)` coordinates, refuting row-order
invariance. -/
theorem C1_counterexample :
    ([[Val.num 0, Val.num 0, Val.num 0, Val.num 20],
      [Val.num 1, Val.num 0, Val.num 0, Val.num 10]].Perm
      [[Val.num 1, Val.num 0, Val.num 0, Val.num 10],
       [Val.num 0, Val.num 0, Val.num 0, Val.num 20]])
    ∧ xyzc_to_arr [[Val.num 1, Val.num 0, Val.num 0, Val.num 10],
        [Val.num 0, Val.num 0, Val.num 0, Val.num 20]] none
        = some [[[Val.num 10], [Val.num 20]]]
    ∧ xyzc_to_arr [[Val.num 0, Val.num 0, Val.num 0, Val.num 20],
        [Val.num 1, Val.num 0, Val.num 0, Val.num 10]] none
        = some [[[Val.num 20], [Val.num 10]]]
    ∧ ([[[Val.num 10], [Val.num 20]]] : List (List (List Val)))
        ≠ [[[Val.num 20], [Val.num 10]]] := by
  refine ⟨?_, ?_, ?_, ?_⟩ <;> decide

/-- C1 (amended): the reshaper places each row's channel vector by the row's
position in the input stream, never by its `(x, y)` coordinates: for a
complete rectangular stream the raster is exactly the input rows' channel
tails in input order, grouped into lines of `maxX + 1` cells (so flattening
the raster returns the channel tails in input order). -/
theorem C1_placement_by_position (rows : List (List Val)) (csz mx my : ℕ)
    (hne : rows ≠ []) (hrect : ∀ r ∈ rows, r.length = 3 + csz) (hc : 0 < csz)
    (hmx : vmaxList (col 0 rows) = Val.num (mx : ℚ))
    (hmy : vmaxList (col 1 rows) = Val.num (my : ℚ))
    (hcount : rows.length = (mx + 1) * (my + 1)) :
    xyzc_to_arr rows none
      = some (chunkList (mx + 1) (rows.map (fun r => r.drop 3)))
    ∧ (chunkList (mx + 1) (rows.map (fun r => r.drop 3))).flatten
        = rows.map (fun r => r.drop 3) := by
  exact ⟨xyzc_to_arr_complete rows csz mx my none hne hrect hc hmx hmy hcount,
    flatten_chunkList (mx + 1) (by omega) _⟩

/-- C1 (witness): the amended claim at the two-row stream of the
counterexample. -/
theorem C1_witness :
    xyzc_to_arr [[Val.num 1, Val.num 0, Val.num 0, Val.num 10],
        [Val.num 0, Val.num 0, Val.num 0, Val.num 20]] none
      = some (chunkList (1 + 1)
          ([[Val.num 1, Val.num 0, Val.num 0, Val.num 10],
            [Val.num 0, Val.num 0, Val.num 0, Val.num 20]].map (fun r => r.drop 3)))
    ∧ (chunkList (1 + 1)
          ([[Val.num 1, Val.num 0, Val.num 0, Val.num 10],
            [Val.num 0, Val.num 0, Val.num 0, Val.num 20]].map (fun r => r.drop 3))).flatten
        = [[Val.num 1, Val.num 0, Val.num 0, Val.num 10],
           [Val.num 0, Val.num 0, Val.num 0, Val.num 20]].map (fun r => r.drop 3) :=
  C1_placement_by_position _ 1 1 0 (by decide) (by decide) (by decide)
    (by decide) (by decide) (by decide)

/-- C2: with no fill value, a NaN anywhere or a row count below the expected
`(maxX+1)*(maxY+1)` raises `IncompleteDataError`; with a fill value, an
under-reported stream reshapes successfully, the populated cells are the
input rows' channel vectors, and every unfilled cell is the fill vector; a
complete stream (e.g. one flagged only for NaNs) also reshapes successfully
with a fill value. -/
theorem C2_missing_handling :
    (∀ rows : List (List Val), hasNan rows = true →
        reshapeChecked rows none = .error .incompleteData)
    ∧ (∀ (rows : List (List Val)) (mx my : ℕ),
        vmaxList (col 0 rows) = Val.num (mx : ℚ) →
        vmaxList (col 1 rows) = Val.num (my : ℚ) →
        rows.length < (mx + 1) * (my + 1) →
        reshapeChecked rows none = .error .incompleteData)
    ∧ (∀ (rows : List (List Val)) (csz mx my : ℕ) (f : Val),
        rows ≠ [] → (∀ r ∈ rows, r.length = 3 + csz) → 0 < csz →
        vmaxList (col 0 rows) = Val.num (mx : ℚ) →
        vmaxList (col 1 rows) = Val.num (my : ℚ) →
        rows.length < (mx + 1) * (my + 1) →
        ∃ img, reshapeChecked rows (some f) = .ok img
          ∧ img.flatten.take rows.length = rows.map (fun r => r.drop 3)
          ∧ img.flatten.drop rows.length
              = List.replicate ((mx + 1) * (my + 1) - rows.length)
                  (List.replicate csz f))
    ∧ (∀ (rows : List (List Val)) (csz mx my : ℕ) (f : Val),
        rows ≠ [] → (∀ r ∈ rows, r.length = 3 + csz) → 0 < csz →
        vmaxList (col 0 rows) = Val.num (mx : ℚ) →
        vmaxList (col 1 rows) = Val.num (my : ℚ) →
        rows.length = (mx + 1) * (my + 1) →
        ∃ img, reshapeChecked rows (some f) = .ok img) := by
  refine ⟨?_, ?_, ?_, ?_⟩
  · intro rows h
    exact reshapeChecked_none_of_missing rows (is_missing_of_hasNan rows h)
  · intro rows mx my hmx hmy hlt
    exact reshapeChecked_none_of_missing rows
      (is_missing_of_count_ne rows mx my hmx hmy (by omega))
  · intro rows csz mx my f hne hrect hc hmx hmy hlt
    have harr := xyzc_to_arr_pad rows csz mx my f hne hrect hc hmx hmy hlt
    refine ⟨_, by rw [reshapeChecked_some_fill, harr], ?_, ?_⟩
    · rw [flatten_chunkList (mx + 1) (by omega), List.map_append]
      rw [List.take_left' (by simp)]
    · rw [flatten_chunkList (mx + 1) (by omega), List.map_append]
      rw [List.drop_left' (by simp), List.map_replicate]
      congr 1
      simp [List.drop_replicate]
  · intro rows csz mx my f hne hrect hc hmx hmy hcnt
    have harr := xyzc_to_arr_complete rows csz mx my (some f) hne hrect hc hmx hmy hcnt
    exact ⟨_, by rw [reshapeChecked_some_fill, harr]⟩

/-- C2 (witness): the three behaviours at concrete streams — a NaN-carrying
complete stream without fill, an under-reported 1×2 stream without fill, the
same under-reported stream with fill `5` (its one unfilled cell is `[5]`),
and a complete stream with fill. -/
theorem C2_witness :
    reshapeChecked [[Val.num 0, Val.num 0, Val.num 0, Val.nan]] none
      = .error .incompleteData
    ∧ reshapeChecked [[Val.num 0, Val.num 1, Val.num 0, Val.num 10]] none
      = .error .incompleteData
    ∧ (∃ img, reshapeChecked [[Val.num 0, Val.num 1, Val.num 0, Val.num 10]]
          (some (Val.num 5)) = .ok img
        ∧ img.flatten.take [[Val.num 0, Val.num 1, Val.num 0, Val.num 10]].length
            = [[Val.num 0, Val.num 1, Val.num 0, Val.num 10]].map (fun r => r.drop 3)
        ∧ img.flatten.drop [[Val.num 0, Val.num 1, Val.num 0, Val.num 10]].length
            = List.replicate ((0 + 1) * (1 + 1)
                  - [[Val.num 0, Val.num 1, Val.num 0, Val.num 10]].length)
                (List.replicate 1 (Val.num 5)))
    ∧ (∃ img, reshapeChecked [[Val.num 0, Val.num 0, Val.num 0, Val.num 7]]
          (some (Val.num 5)) = .ok img) := by
  refine ⟨?_, ?_, ?_, ?_⟩
  · exact C2_missing_handling.1 _ (by decide)
  · exact C2_missing_handling.2.1 _ 0 1 (by decide) (by decide) (by decide)
  · exact C2_missing_handling.2.2.1 _ 1 0 1 (Val.num 5) (by decide) (by decide)
      (by decide) (by decide) (by decide) (by decide)
  · exact C2_missing_handling.2.2.2 _ 1 0 0 (Val.num 5) (by decide) (by decide)
      (by decide) (by decide) (by decide) (by decide)

/-- C9: an over-reported stream (more rows than `(maxX+1)*(maxY+1)`) with a
fill value supplied makes the reshape fail — the synthesized padding count is
negative — instead of truncating rows or returning a raster. -/
theorem C9_over_reported (rows : List (List Val)) (mx my : ℕ) (f : Val)
    (hne : rows ≠ [])
    (hmx : vmaxList (col 0 rows) = Val.num (mx : ℚ))
    (hmy : vmaxList (col 1 rows) = Val.num (my : ℚ))
    (hgt : (mx + 1) * (my + 1) < rows.length) :
    xyzc_to_arr rows (some f) = none
    ∧ reshapeChecked rows (some f) = .error .reshapeFailed := by
  have h := xyzc_to_arr_over rows mx my f hne hmx hmy hgt
  exact ⟨h, by rw [reshapeChecked_some_fill, h]⟩

/-- C9 (witness): a 1×1 grid reported with two rows and fill `5` fails. -/
theorem C9_witness :
    xyzc_to_arr [[Val.num 0, Val.num 0, Val.num 0, Val.num 1],
      [Val.num 0, Val.num 0, Val.num 0, Val.num 2]] (some (Val.num 5)) = none
    ∧ reshapeChecked [[Val.num 0, Val.num 0, Val.num 0, Val.num 1],
        [Val.num 0, Val.num 0, Val.num 0, Val.num 2]] (some (Val.num 5))
      = .error .reshapeFailed :=
  C9_over_reported _ 0 0 (Val.num 5) (by decide) (by decide) (by decide) (by decide)

/-! ## Helper lemmas: byte/float round trips and the decoder -/

theorem f32_bytes_id_chunk (c : List Nat) (hc : c.length = 4)
    (hlt : ∀ x ∈ c, x < 256) : f32ToBytes (bytesToF32 c) = c := by
  match c, hc with
  | [b0, b1, b2, b3], _ =>
    have h0 : b0 < 256 := hlt b0 (by simp)
    have h1 : b1 < 256 := hlt b1 (by simp)
    have h2 : b2 < 256 := hlt b2 (by simp)
    have h3 : b3 < 256 := hlt b3 (by simp)
    simp only [bytesToF32, f32ToBytes, List.cons.injEq, and_true]
    refine ⟨?_, ?_, ?_, ?_⟩ <;> omega

theorem bytes_f32_id (p : Nat) (hp : p < 2 ^ 32) :
    bytesToF32 (f32ToBytes p) = p := by
  simp only [f32ToBytes, bytesToF32]
  omega

theorem flatten_map_flatMap (ll : List (List α)) (g : α → List β) :
    (ll.map (fun c => c.flatMap g)).flatten = ll.flatten.flatMap g := by
  induction ll with
  | nil => rfl
  | cons c rest ih => simp [List.flatMap_append, ih]

/-- C3: over a valid byte range, the decoder fails with the format error
exactly when `stop - start` is not a multiple of `4 * w`; otherwise it
produces `(stop - start) / (4 * w)` rows of `w` floats each, and re-encoding
every row's floats as four little-endian bytes reproduces exactly the
`stop - start` bytes of the range. -/
theorem C3_decoder (data : List Nat) (start stop w : Nat)
    (hb : ∀ b ∈ data, b < 256) (hw : 0 < w) (h1 : start ≤ stop)
    (h2 : stop ≤ data.length) :
    (¬ (4 * w ∣ (stop - start)) → decodeAcq data start stop w = .error .formatErr)
    ∧ ((4 * w ∣ (stop - start)) → ∃ rows,
        decodeAcq data start stop w = .ok rows
        ∧ rows.length * (4 * w) = stop - start
        ∧ (∀ r ∈ rows, r.length = w)
        ∧ (rows.map (fun r => r.flatMap f32ToBytes)).flatten
            = (data.drop start).take (stop - start)) := by
  have hraw : ((data.drop start).take (stop - start)).length = stop - start := by
    simp only [List.length_take, List.length_drop]
    omega
  constructor
  · intro hnd
    by_cases h4 : ((data.drop start).take (stop - start)).length % 4 = 0
    · have hdvd4 : 4 ∣ (stop - start) := by
        rw [hraw] at h4
        omega
      have hchunk := chunkList_length_mul 4 (by omega)
        ((data.drop start).take (stop - start)) (by rw [hraw]; exact hdvd4)
      rw [hraw] at hchunk
      have hnw : ¬ (((chunkList 4 ((data.drop start).take (stop - start))).map
          bytesToF32).length % w = 0) := by
        rw [List.length_map]
        intro hmod
        rcases Nat.dvd_of_mod_eq_zero hmod with ⟨k, hk⟩
        exact hnd ⟨k, by rw [← hchunk, hk]; ring⟩
      simp only [decodeAcq, h4]
      rw [if_neg (by simp), if_neg (by intro hcon; exact hnw hcon.2)]
    · simp only [decodeAcq]
      rw [if_pos h4]
  · intro hd
    have hdvd4 : 4 ∣ (stop - start) := Dvd.dvd.trans ⟨w, rfl⟩ hd
    have h4 : ((data.drop start).take (stop - start)).length % 4 = 0 := by
      rw [hraw]
      omega
    have hchunk := chunkList_length_mul 4 (by omega)
      ((data.drop start).take (stop - start)) (by rw [hraw]; exact hdvd4)
    rw [hraw] at hchunk
    have hfl : ((chunkList 4 ((data.drop start).take (stop - start))).map
        bytesToF32).length * 4 = stop - start := by
      rw [List.length_map]
      exact hchunk
    have hwdvd : w ∣ ((chunkList 4 ((data.drop start).take (stop - start))).map
        bytesToF32).length := by
      rcases hd with ⟨k, hk⟩
      refine ⟨k, ?_⟩
      have hmul : ((chunkList 4 ((data.drop start).take (stop - start))).map
          bytesToF32).length * 4 = (w * k) * 4 := by
        rw [hfl, hk]
        ring
      omega
    have hmodw : ((chunkList 4 ((data.drop start).take (stop - start))).map
        bytesToF32).length % w = 0 := Nat.mod_eq_zero_of_dvd hwdvd
    refine ⟨chunkList w ((chunkList 4 ((data.drop start).take (stop - start))).map
      bytesToF32), ?_, ?_, ?_, ?_⟩
    · simp only [decodeAcq, h4]
      rw [if_neg (by simp), if_pos ⟨hw, hmodw⟩]
    · have hrows := chunkList_length_mul w hw
        ((chunkList 4 ((data.drop start).take (stop - start))).map bytesToF32) hwdvd
      have hexp : (chunkList w ((chunkList 4 ((data.drop start).take
          (stop - start))).map bytesToF32)).length * (4 * w)
          = ((chunkList w ((chunkList 4 ((data.drop start).take
              (stop - start))).map bytesToF32)).length * w) * 4 := by
        ring
      rw [hexp, hrows, hfl]
    · exact chunkList_uniform w hw _ hwdvd
    · rw [flatten_map_flatMap, flatten_chunkList w hw]
      rw [List.flatMap_def, List.map_map]
      have hmem : ∀ c ∈ chunkList 4 ((data.drop start).take (stop - start)),
          (f32ToBytes ∘ bytesToF32) c = id c := by
        intro c hcmem
        have hclen : c.length = 4 := chunkList_uniform 4 (by omega) _
          (by rw [hraw]; exact hdvd4) c hcmem
        have hcel : ∀ x ∈ c, x < 256 := by
          intro x hx
          have hxflat : x ∈ (chunkList 4
              ((data.drop start).take (stop - start))).flatten :=
            List.mem_flatten.mpr ⟨c, hcmem, hx⟩
          rw [flatten_chunkList 4 (by omega)] at hxflat
          exact hb x (List.mem_of_mem_drop (List.mem_of_mem_take hxflat))
        simpa using f32_bytes_id_chunk c hclen hcel
      rw [List.map_congr_left hmem, List.map_id]
      exact flatten_chunkList 4 (by omega) _

/-- C3 (witness): an eight-byte range decoded with two channels-plus-three
width... (here `w = 2` directly) splits into one row of two floats whose
re-encoded bytes are the range. -/
theorem C3_witness :
    (4 * 2 ∣ (8 - 0)) ∧ ∃ rows,
      decodeAcq [0, 0, 0, 0, 0, 0, 128, 63] 0 8 2 = .ok rows
      ∧ rows.length * (4 * 2) = 8 - 0
      ∧ (∀ r ∈ rows, r.length = 2)
      ∧ (rows.map (fun r => r.flatMap f32ToBytes)).flatten
          = (([0, 0, 0, 0, 0, 0, 128, 63] : List Nat).drop 0).take (8 - 0) :=
  ⟨by decide, (C3_decoder [0, 0, 0, 0, 0, 0, 128, 63] 0 8 2 (by decide) (by decide)
    (by decide) (by decide)).2 (by decide)⟩

/-! ## Helper lemmas: the acquisition catalog -/

theorem mem_channelsFor (chans : List ChannelRec) (id_ : String) (c : ChannelRec) :
    c ∈ channelsFor chans id_ ↔
      (c ∈ chans ∧ c.acquisitionId = id_ ∧
        c.channelName ∉ (["X", "Y", "Z"] : List String)) := by
  unfold channelsFor
  rw [List.mem_insertionSort, List.mem_filter, decide_eq_true_eq]

theorem sorted_channelsFor (chans : List ChannelRec) (id_ : String) :
    List.Sorted (fun a b => a.orderNumber ≤ b.orderNumber) (channelsFor chans id_) := by
  haveI : IsTotal ChannelRec (fun a b => a.orderNumber ≤ b.orderNumber) :=
    ⟨fun a b => Int.le_total _ _⟩
  haveI : IsTrans ChannelRec (fun a b => a.orderNumber ≤ b.orderNumber) :=
    ⟨fun _ _ _ => Int.le_trans⟩
  exact List.sorted_insertionSort _ _

theorem channelsFor_perm_invariant (chans chans2 : List ChannelRec) (id_ : String)
    (hperm : chans.Perm chans2)
    (hinj : ∀ a ∈ chans, ∀ b ∈ chans, a.acquisitionId = id_ → b.acquisitionId = id_ →
      a.orderNumber = b.orderNumber → a = b) :
    channelsFor chans id_ = channelsFor chans2 id_ := by
  haveI : IsAntisymm ChannelRec (fun a b => a.orderNumber < b.orderNumber ∨ a = b) :=
    ⟨fun a b h1 h2 => by
      rcases h1 with h1 | h1
      · rcases h2 with h2 | h2
        · omega
        · exact h2.symm
      · exact h1⟩
  have hp : (channelsFor chans id_).Perm (channelsFor chans2 id_) := by
    unfold channelsFor
    exact (List.perm_insertionSort _ _).trans
      ((hperm.filter _).trans (List.perm_insertionSort _ _).symm)
  have hstrict : ∀ (l : List ChannelRec),
      (∀ c ∈ l, c ∈ chans ∧ c.acquisitionId = id_) →
      List.Sorted (fun a b => a.orderNumber ≤ b.orderNumber) l →
      List.Pairwise (fun a b => a.orderNumber < b.orderNumber ∨ a = b) l := by
    intro l hmem hs
    refine List.Pairwise.imp_of_mem ?_ hs
    intro a b ha hb hle
    by_cases heq : a.orderNumber = b.orderNumber
    · exact Or.inr (hinj a (hmem a ha).1 b (hmem b hb).1 (hmem a ha).2 (hmem b hb).2 heq)
    · exact Or.inl (by omega)
  refine List.eq_of_perm_of_sorted
    (r := fun a b => a.orderNumber < b.orderNumber ∨ a = b) hp ?_ ?_
  · refine hstrict _ ?_ (sorted_channelsFor chans id_)
    intro c hc
    have := (mem_channelsFor chans id_ c).mp hc
    exact ⟨this.1, this.2.1⟩
  · refine hstrict _ ?_ (sorted_channelsFor chans2 id_)
    intro c hc
    have := (mem_channelsFor chans2 id_ c).mp hc
    exact ⟨hperm.symm.subset this.1, this.2.1⟩

/-- The channel labels of a successfully processed acquisition are the
display names of its selected, sorted channel records. -/
theorem processAcq_ok_names (chans : List ChannelRec) (data : List Nat)
    (fill : Option Val) (acq : AcqRec) (out : RasterOut)
    (hok : processAcq chans data fill acq = .ok out) :
    out.channelNames = (channelsFor chans acq.id).map displayName := by
  unfold processAcq at hok
  split at hok
  · cases hok
  · split at hok
    · cases hok
    · split at hok
      · cases hok
      · split at hok
        · cases hok
          rfl
        · cases hok

/-! ## Claims C5, C6, C7: the acquisition catalog -/

/-- C5: the emitted channel sequence is invariant under any permutation of
the metadata document's records (given the per-acquisition order numbers
distinguish records), is sorted by `orderNumber` ascending, consists exactly
of the records whose foreign key matches (minus the coordinate
pseudo-channels), and each emitted display name is `name_label` when the
label is present, else `name`. -/
theorem C5_channel_ordering (chans chans2 : List ChannelRec) (id_ : String)
    (hperm : chans.Perm chans2)
    (hinj : ∀ a ∈ chans, ∀ b ∈ chans, a.acquisitionId = id_ → b.acquisitionId = id_ →
      a.orderNumber = b.orderNumber → a = b) :
    channelsFor chans id_ = channelsFor chans2 id_
    ∧ List.Sorted (fun a b => a.orderNumber ≤ b.orderNumber) (channelsFor chans id_)
    ∧ (∀ c, c ∈ channelsFor chans id_ ↔
        (c ∈ chans ∧ c.acquisitionId = id_ ∧
          c.channelName ∉ (["X", "Y", "Z"] : List String)))
    ∧ (channelsFor chans id_).map displayName
        = (channelsFor chans id_).map (fun c =>
            match c.channelLabel with
            | some label => c.channelName ++ "_" ++ label
            | none => c.channelName) :=
  ⟨channelsFor_perm_invariant chans chans2 id_ hperm hinj,
    sorted_channelsFor chans id_,
    fun c => mem_channelsFor chans id_ c,
    rfl⟩

/-- C5 (witness): the spec's example — order numbers `[3, 1, 2]` on names
`[C, A, B]` — in two document orders yields the same `[A, B, C]` sequence. -/
theorem C5_witness :
    channelsFor [⟨"1", "C", none, 3⟩, ⟨"1", "A", none, 1⟩, ⟨"1", "B", none, 2⟩] "1"
      = channelsFor [⟨"1", "A", none, 1⟩, ⟨"1", "B", none, 2⟩, ⟨"1", "C", none, 3⟩] "1"
    ∧ channelsFor [⟨"1", "C", none, 3⟩, ⟨"1", "A", none, 1⟩, ⟨"1", "B", none, 2⟩] "1"
      = [⟨"1", "A", none, 1⟩, ⟨"1", "B", none, 2⟩, ⟨"1", "C", none, 3⟩] :=
  ⟨(C5_channel_ordering
      [⟨"1", "C", none, 3⟩, ⟨"1", "A", none, 1⟩, ⟨"1", "B", none, 2⟩]
      [⟨"1", "A", none, 1⟩, ⟨"1", "B", none, 2⟩, ⟨"1", "C", none, 3⟩] "1"
      (by decide) (by decide)).1,
    by decide⟩

/-- C6: on any successfully processed acquisition the emitted channel-label
sequence is the display names of the selected channel records, and no
selected record is named `X`, `Y` or `Z`, even when such records are present
in the metadata channel table. -/
theorem C6_pseudo_channel_exclusion (chans : List ChannelRec) (data : List Nat)
    (fill : Option Val) (acq : AcqRec) (out : RasterOut)
    (hok : processAcq chans data fill acq = .ok out) :
    out.channelNames = (channelsFor chans acq.id).map displayName
    ∧ ∀ c ∈ channelsFor chans acq.id,
        c.channelName ≠ "X" ∧ c.channelName ≠ "Y" ∧ c.channelName ≠ "Z" := by
  refine ⟨processAcq_ok_names chans data fill acq out hok, ?_⟩
  intro c hc
  have hm := ((mem_channelsFor chans acq.id c).mp hc).2.2
  simp only [List.mem_cons, List.not_mem_nil, or_false, not_or] at hm
  exact ⟨hm.1, hm.2.1, hm.2.2⟩

/-- C6 (witness): an acquisition whose channel table carries an `X`
pseudo-channel record; the emitted labels are `["A_L"]` and the selected
records avoid the coordinate names. -/
theorem C6_witness :
    processAcq [⟨"1", "A", some "L", 1⟩, ⟨"1", "X", none, 0⟩]
        (List.replicate 16 0) (some (Val.num 5)) ⟨"1", 0, 16, "Float", "4"⟩
      = .ok ⟨[[[Val.num 0]]], ["A_L"]⟩
    ∧ (RasterOut.mk [[[Val.num 0]]] ["A_L"]).channelNames
        = (channelsFor [⟨"1", "A", some "L", 1⟩, ⟨"1", "X", none, 0⟩] "1").map displayName
    ∧ ∀ c ∈ channelsFor [⟨"1", "A", some "L", 1⟩, ⟨"1", "X", none, 0⟩] "1",
        c.channelName ≠ "X" ∧ c.channelName ≠ "Y" ∧ c.channelName ≠ "Z" :=
  ⟨by decide,
    (C6_pseudo_channel_exclusion
      [⟨"1", "A", some "L", 1⟩, ⟨"1", "X", none, 0⟩] (List.replicate 16 0)
      (some (Val.num 5)) ⟨"1", 0, 16, "Float", "4"⟩ ⟨[[[Val.num 0]]], ["A_L"]⟩
      (by decide)).1,
    (C6_pseudo_channel_exclusion
      [⟨"1", "A", some "L", 1⟩, ⟨"1", "X", none, 0⟩] (List.replicate 16 0)
      (some (Val.num 5)) ⟨"1", 0, 16, "Float", "4"⟩ ⟨[[[Val.num 0]]], ["A_L"]⟩
      (by decide)).2⟩

/-- C7 (counterexample): an acquisition with id `7` declaring `ValueBytes`
of 8 raises the unsupported-format error, but its fixed message does not
contain the acquisition id `7` anywhere — the claim that the error names the
offending acquisition's id fails on the code. -/
theorem C7_counterexample :
    processAcq [] [] none ⟨"7", 0, 0, "Float", "8"⟩
      = .error (.unsupportedFormat unsupportedMsg)
    ∧ subOcc "7".toList unsupportedMsg.toList = false := by
  refine ⟨?_, ?_⟩ <;> decide

/-- C7 (amended): an acquisition whose declared value encoding is not 4-byte
IEEE-754 float (`SegmentDataFormat` not `Float`, or `ValueBytes` not `"4"`)
makes the reader raise the unsupported-format error with its fixed message,
for every byte content and fill policy — so nothing of that acquisition's
byte range is decoded; the message, however, is constant and does not name
the acquisition id. -/
theorem C7_unsupported_format (chans : List ChannelRec) (data : List Nat)
    (fill : Option Val) (acq : AcqRec)
    (hbad : acq.segmentDataFormat ≠ "Float" ∨ acq.valueBytes ≠ "4") :
    processAcq chans data fill acq = .error (.unsupportedFormat unsupportedMsg) := by
  unfold processAcq
  rw [if_pos hbad]

/-- C7 (witness): the amended claim at a concrete acquisition with value
width 8 (and arbitrary non-empty data the reader never touches). -/
theorem C7_witness :
    processAcq [⟨"9", "A", none, 1⟩] [1, 2, 3] (some (Val.num 0))
        ⟨"9", 0, 0, "Float", "8"⟩
      = .error (.unsupportedFormat unsupportedMsg) :=
  C7_unsupported_format [⟨"9", "A", none, 1⟩] [1, 2, 3] (some (Val.num 0))
    ⟨"9", 0, 0, "Float", "8"⟩ (by decide)

/-! ## Helper lemmas: the footer locator -/

theorem rfindAux_some (data pat : List Nat) : ∀ (i j : Nat),
    rfindAux data pat i = some j →
    j ≤ i ∧ pat.isPrefixOf (data.drop j) = true
      ∧ ∀ k, j < k → k ≤ i → pat.isPrefixOf (data.drop k) = false := by
  intro i
  induction i with
  | zero =>
    intro j h
    simp only [rfindAux] at h
    split at h
    · cases h
      exact ⟨Nat.le_refl 0, ‹_›, fun k h1 h2 => by omega⟩
    · cases h
  | succ i ih =>
    intro j h
    simp only [rfindAux] at h
    split at h
    · cases h
      exact ⟨Nat.le_refl _, ‹_›, fun k h1 h2 => by omega⟩
    · rename_i hneg
      obtain ⟨h1, h2, h3⟩ := ih j h
      refine ⟨by omega, h2, ?_⟩
      intro k hk1 hk2
      by_cases hk : k ≤ i
      · exact h3 k hk1 hk
      · have : k = i + 1 := by omega
        subst this
        exact Bool.eq_false_iff.mpr hneg

theorem rfindAux_none (data pat : List Nat) : ∀ (i : Nat),
    rfindAux data pat i = none → ∀ k, k ≤ i → pat.isPrefixOf (data.drop k) = false := by
  intro i
  induction i with
  | zero =>
    intro h k hk
    simp only [rfindAux] at h
    split at h
    · cases h
    · have : k = 0 := by omega
      subst this
      exact Bool.eq_false_iff.mpr ‹_›
  | succ i ih =>
    intro h k hk
    simp only [rfindAux] at h
    split at h
    · cases h
    · by_cases hki : k ≤ i
      · exact ih h k hki
      · have : k = i + 1 := by omega
        subst this
        exact Bool.eq_false_iff.mpr ‹_›

theorem markerBytes_ne_nil (enc : TextEnc) : markerBytes enc ≠ [] := by
  cases enc <;> decide

theorem isPrefixOf_nil_false (pat : List Nat) (h : pat ≠ []) :
    pat.isPrefixOf ([] : List Nat) = false := by
  cases pat with
  | nil => exact absurd rfl h
  | cons a t => rfl

theorem subOcc_of_isPrefixOf (pat s : List Char) (i : Nat) (hi : i ≤ s.length)
    (h : pat.isPrefixOf (s.drop i) = true) : subOcc pat s = true := by
  unfold subOcc
  rw [List.any_eq_true]
  exact ⟨i, List.mem_range.mpr (by omega), h⟩

theorem subOcc_append_right (pat s t : List Char) (h : subOcc pat t = true) :
    subOcc pat (s ++ t) = true := by
  unfold subOcc at h
  rw [List.any_eq_true] at h
  obtain ⟨i, hi, hp⟩ := h
  rw [List.mem_range] at hi
  refine subOcc_of_isPrefixOf pat _ (s.length + i) ?_ ?_
  · rw [List.length_append]
    omega
  · rw [List.drop_append]
    exact hp

theorem string_toList_append (a b : String) :
    (a ++ b).toList = a.toList ++ b.toList := by
  simp [String.toList, String.data_append]

/-- The footer-not-found message contains the path. -/
theorem footerMsg_names_path (path : String) :
    subOcc path.toList (footerMissingMsg path).toList = true := by
  have hdata : (footerMissingMsg path).toList
      = "'".toList ++ (path.toList ++ footerMissingTail.toList) := by
    rw [footerMissingMsg, string_toList_append, string_toList_append,
      List.append_assoc]
  have hlen : ("'".toList).length = 1 := rfl
  refine subOcc_of_isPrefixOf _ _ 1 ?_ ?_
  · rw [hdata]
    simp only [List.length_append, hlen]
    omega
  · rw [hdata, ← hlen, List.drop_left]
    exact List.isPrefixOf_iff_prefix.mpr (List.prefix_append _ _)

/-- The footer-not-found message contains the suggestion that the encoding
may be wrong. -/
theorem footerMsg_suggests_encoding (path : String) :
    subOcc "(try different encoding?)".toList (footerMissingMsg path).toList = true := by
  have hdata : (footerMissingMsg path).toList
      = ("'".toList ++ path.toList) ++ footerMissingTail.toList := by
    rw [footerMissingMsg, string_toList_append, string_toList_append]
  rw [hdata]
  exact subOcc_append_right _ _ _ (by decide)

/-! ## Claim C8: the footer locator -/

/-- C8: the locator scans backward from the end for the marker bytes of the
caller-supplied encoding.  When no occurrence exists it fails with the
`FormatError` message, which names the path and suggests trying a different
encoding; when an occurrence exists it succeeds with exactly the byte suffix
from the greatest (last) occurrence to end-of-file — the bytes the source
then decodes with that encoding and parses as the metadata document. -/
theorem C8_footer_locator (path : String) (data : List Nat) (enc : TextEnc) :
    ((∀ k, k ≤ data.length → (markerBytes enc).isPrefixOf (data.drop k) = false) →
      locateFooter path data enc = .error (footerMissingMsg path)
        ∧ subOcc path.toList (footerMissingMsg path).toList = true
        ∧ subOcc "(try different encoding?)".toList (footerMissingMsg path).toList = true)
    ∧ (∀ j, j ≤ data.length → (markerBytes enc).isPrefixOf (data.drop j) = true →
      ∃ k, j ≤ k ∧ k ≤ data.length
        ∧ (markerBytes enc).isPrefixOf (data.drop k) = true
        ∧ (∀ i, k < i → (markerBytes enc).isPrefixOf (data.drop i) = false)
        ∧ locateFooter path data enc = .ok (data.drop k)) := by
  constructor
  · intro hnone
    have hrf : rfindList data (markerBytes enc) = none := by
      unfold rfindList
      cases hr : rfindAux data (markerBytes enc) data.length with
      | none => rfl
      | some j =>
        obtain ⟨h1, h2, _⟩ := rfindAux_some data (markerBytes enc) data.length j hr
        rw [hnone j h1] at h2
        cases h2
    refine ⟨?_, footerMsg_names_path path, footerMsg_suggests_encoding path⟩
    unfold locateFooter
    rw [hrf]
  · intro j hj hocc
    unfold locateFooter rfindList
    cases hr : rfindAux data (markerBytes enc) data.length with
    | none =>
      have := rfindAux_none data (markerBytes enc) data.length hr j hj
      rw [this] at hocc
      cases hocc
    | some k =>
      obtain ⟨h1, h2, h3⟩ := rfindAux_some data (markerBytes enc) data.length k hr
      have hjk : j ≤ k := by
        by_contra hc
        have := h3 j (by omega) hj
        rw [this] at hocc
        cases hocc
      refine ⟨k, hjk, h1, h2, ?_, rfl⟩
      intro i hi
      by_cases hil : i ≤ data.length
      · exact h3 i hi hil
      · rw [List.drop_eq_nil_of_le (by omega)]
        exact isPrefixOf_nil_false _ (markerBytes_ne_nil enc)

/-- C8 (witness): a buffer without the marker fails with the path-naming
message under UTF-16-LE; a buffer that is the UTF-8 marker itself succeeds
with the whole suffix. -/
theorem C8_witness :
    (locateFooter "f.mcd" [0, 1, 2] .utf16le = .error (footerMissingMsg "f.mcd")
      ∧ subOcc "f.mcd".toList (footerMissingMsg "f.mcd").toList = true
      ∧ subOcc "(try different encoding?)".toList
          (footerMissingMsg "f.mcd").toList = true)
    ∧ (∃ k, 0 ≤ k ∧ k ≤ (markerBytes TextEnc.utf8).length
        ∧ (markerBytes TextEnc.utf8).isPrefixOf
            ((markerBytes TextEnc.utf8).drop k) = true
        ∧ (∀ i, k < i →
            (markerBytes TextEnc.utf8).isPrefixOf
              ((markerBytes TextEnc.utf8).drop i) = false)
        ∧ locateFooter "f.mcd" (markerBytes TextEnc.utf8) TextEnc.utf8
            = .ok ((markerBytes TextEnc.utf8).drop k)) :=
  ⟨(C8_footer_locator "f.mcd" [0, 1, 2] .utf16le).1 (by decide),
    (C8_footer_locator "f.mcd" (markerBytes TextEnc.utf8) TextEnc.utf8).2 0
      (by decide) (by decide)⟩

/-! ## Helper lemmas: the summary writer -/

theorem splitOnChar_ne_nil (sep : Char) : ∀ l : List Char, splitOnChar sep l ≠ [] := by
  intro l
  cases l with
  | nil => simp [splitOnChar]
  | cons c cs =>
    simp only [splitOnChar]
    cases h : splitOnChar sep cs with
    | nil => simp
    | cons hd tl =>
      by_cases hc : c = sep <;> simp [hc]

theorem splitOnChar_length (sep : Char) : ∀ l : List Char,
    (splitOnChar sep l).length = l.count sep + 1 := by
  intro l
  induction l with
  | nil => rfl
  | cons c cs ih =>
    have hcount : (c :: cs).count sep = cs.count sep + (if c = sep then 1 else 0) := by
      by_cases hc : c = sep <;> simp [List.count_cons, beq_iff_eq, hc]
    simp only [splitOnChar]
    cases h : splitOnChar sep cs with
    | nil => exact absurd h (splitOnChar_ne_nil sep cs)
    | cons hd tl =>
      rw [h] at ih
      simp only [List.length_cons] at ih
      by_cases hc : c = sep
      · simp only [if_pos hc, List.length_cons, hcount]
        omega
      · simp only [if_neg hc, List.length_cons, hcount]
        omega

theorem summaryRows_cons_bad (nm : List Char) (rest : List (List Char))
    (h : nm.count '_' ≠ 1) : summaryRows (nm :: rest) = .error () := by
  have hlen : (splitOnChar '_' nm).length ≠ 2 := by
    rw [splitOnChar_length]
    omega
  rcases hsp : splitOnChar '_' nm with _ | ⟨a, _ | ⟨b, _ | ⟨c, t⟩⟩⟩
  · simp [summaryRows, hsp]
  · simp [summaryRows, hsp]
  · rw [hsp] at hlen
    simp at hlen
  · simp [summaryRows, hsp]

theorem summaryRows_good (names : List (List Char))
    (h : ∀ nm ∈ names, nm.count '_' = 1) :
    ∃ rows, summaryRows names = .ok rows := by
  induction names with
  | nil => exact ⟨[], rfl⟩
  | cons nm rest ih =>
    have hlen : (splitOnChar '_' nm).length = 2 := by
      rw [splitOnChar_length, h nm (List.mem_cons_self nm rest)]
    obtain ⟨rows, hrows⟩ := ih (fun x hx => h x (List.mem_cons_of_mem _ hx))
    rcases hsp : splitOnChar '_' nm with _ | ⟨a, _ | ⟨b, _ | ⟨c, t⟩⟩⟩
    · rw [hsp] at hlen
      simp at hlen
    · rw [hsp] at hlen
      simp at hlen
    · refine ⟨(a, b) :: rows, ?_⟩
      simp [summaryRows, hsp, hrows]
    · rw [hsp] at hlen
      simp at hlen

/-! ## Claim C10: the summary writer's underscore assumption -/

/-- C10: writing the side-car summary splits each channel display name on
underscores and unpacks exactly two parts; a raster whose channel names each
contain exactly one underscore yields summary rows, while any channel name
with no underscore or more than one underscore makes the summary writing
fail with the unpacking error instead of producing its row. -/
theorem C10_summary_underscores (names : List (List Char)) :
    ((∃ nm ∈ names, nm.count '_' ≠ 1) → summaryRows names = .error ())
    ∧ ((∀ nm ∈ names, nm.count '_' = 1) → ∃ rows, summaryRows names = .ok rows) := by
  constructor
  · intro hbad
    induction names with
    | nil => simp at hbad
    | cons nm rest ih =>
      by_cases hnm : nm.count '_' = 1
      · have hrest : ∃ x ∈ rest, x.count '_' ≠ 1 := by
          obtain ⟨x, hx, hcx⟩ := hbad
          rcases List.mem_cons.mp hx with rfl | hx
          · exact absurd hnm hcx
          · exact ⟨x, hx, hcx⟩
        have herr := ih hrest
        have hlen : (splitOnChar '_' nm).length = 2 := by
          rw [splitOnChar_length, hnm]
        rcases hsp : splitOnChar '_' nm with _ | ⟨a, _ | ⟨b, _ | ⟨c, t⟩⟩⟩
        · rw [hsp] at hlen
          simp at hlen
        · rw [hsp] at hlen
          simp at hlen
        · simp [summaryRows, hsp, herr]
        · rw [hsp] at hlen
          simp at hlen
      · exact summaryRows_cons_bad nm rest hnm
  · exact summaryRows_good names

/-- C10 (witness): `["a_b"]` (one underscore) produces rows; `["ab"]` (no
underscore) and `["a_b_c"]` (two underscores) fail.  (The failing cases
instantiate the bad-name direction at two concrete rasters.) -/
theorem C10_witness :
    (∃ rows, summaryRows [['a', '_', 'b']] = .ok rows)
    ∧ summaryRows [['a', 'b']] = .error ()
    ∧ summaryRows [['a', '_', 'b', '_', 'c']] = .error () :=
  ⟨(C10_summary_underscores [['a', '_', 'b']]).2 (by decide),
    (C10_summary_underscores [['a', 'b']]).1 ⟨['a', 'b'], by decide, by decide⟩,
    (C10_summary_underscores [['a', '_', 'b', '_', 'c']]).1
      ⟨['a', '_', 'b', '_', 'c'], by decide, by decide⟩⟩

/-! ## Helper lemmas: float32 encoding of naturals -/

theorem log2Fuel_eq : ∀ (fuel n : Nat), n ≤ fuel → log2Fuel fuel n = Nat.log2 n := by
  intro fuel
  induction fuel with
  | zero =>
    intro n h
    have : n = 0 := by omega
    subst this
    rw [Nat.log2]
    rfl
  | succ f ih =>
    intro n h
    simp only [log2Fuel]
    by_cases h2 : n < 2
    · rw [if_pos h2]
      rw [Nat.log2]
      rw [if_neg (by omega)]
    · rw [if_neg h2, ih (n / 2) (by omega)]
      conv_rhs => rw [Nat.log2]
      rw [if_pos (by omega)]

/-- Field decomposition of `natToF32 n` for `1 ≤ n ≤ 2 ^ 24`: biased
exponent `e + 127` with `e ≤ 24`, mantissa `m < 2 ^ 23`, and the exactness
equation `(2 ^ 23 + m) * 2 ^ e = n * 2 ^ 23`. -/
theorem natToF32_bits (n : Nat) (h0 : n ≠ 0) (h : n ≤ 2 ^ 24) :
    ∃ e m, e ≤ 24 ∧ m < 2 ^ 23
      ∧ natToF32 n = (e + 127) * 2 ^ 23 + m
      ∧ (2 ^ 23 + m) * 2 ^ e = n * 2 ^ 23 := by
  have hfuel : natLog2 n = Nat.log2 n := log2Fuel_eq n n (Nat.le_refl n)
  set e := Nat.log2 n with he_def
  have he1 : 2 ^ e ≤ n := Nat.log2_self_le h0
  have he2 : n < 2 ^ (e + 1) := Nat.lt_log2_self
  have hee : e ≤ 24 := by
    by_contra hc
    have h25 : (2 : ℕ) ^ 25 ≤ 2 ^ e := Nat.pow_le_pow_right (by omega) (by omega)
    have : (2 : ℕ) ^ 24 < 2 ^ 25 := by norm_num
    omega
  have hdvd : 2 ^ e ∣ n * 2 ^ 23 := by
    rcases Nat.lt_or_ge e 24 with hlt | hge
    · exact Dvd.dvd.mul_left (pow_dvd_pow 2 (by omega)) n
    · have he24 : e = 24 := by omega
      have hn : n = 2 ^ 24 := by
        rw [he24] at he1
        omega
      rw [he24, hn]
      exact ⟨2 ^ 23, by norm_num⟩
  have hD1 : 2 ^ 23 ≤ n * 2 ^ 23 / 2 ^ e := by
    rw [Nat.le_div_iff_mul_le (by positivity)]
    calc 2 ^ 23 * 2 ^ e = 2 ^ e * 2 ^ 23 := by ring
      _ ≤ n * 2 ^ 23 := Nat.mul_le_mul_right _ he1
  have hD2 : n * 2 ^ 23 / 2 ^ e < 2 ^ 24 := by
    rw [Nat.div_lt_iff_lt_mul (by positivity)]
    calc n * 2 ^ 23 < 2 ^ (e + 1) * 2 ^ 23 :=
          Nat.mul_lt_mul_of_lt_of_le he2 (Nat.le_refl _) (by positivity)
      _ = 2 ^ 24 * 2 ^ e := by ring
  refine ⟨e, n * 2 ^ 23 / 2 ^ e - 2 ^ 23, hee, by omega, ?_, ?_⟩
  · have hL : log2Fuel n n = e := hfuel
    simp only [natToF32, if_neg h0, natLog2, hL]
  · have hcancel : n * 2 ^ 23 / 2 ^ e * 2 ^ e = n * 2 ^ 23 :=
      Nat.div_mul_cancel hdvd
    have : 2 ^ 23 + (n * 2 ^ 23 / 2 ^ e - 2 ^ 23) = n * 2 ^ 23 / 2 ^ e := by omega
    rw [this, hcancel]

theorem natToF32_lt (n : Nat) (h : n ≤ 2 ^ 24) : natToF32 n < 2 ^ 32 := by
  by_cases h0 : n = 0
  · subst h0
    decide
  · obtain ⟨e, m, hee, hm, hbits, _⟩ := natToF32_bits n h0 h
    rw [hbits]
    have : (e + 127) * 2 ^ 23 ≤ 151 * 2 ^ 23 := Nat.mul_le_mul_right _ (by omega)
    have h151 : (151 : ℕ) * 2 ^ 23 + 2 ^ 23 < 2 ^ 32 := by norm_num
    omega

/-- Exactness of the natural-number float32 encoding on `n ≤ 2 ^ 24`. -/
theorem interp_natToF32 (n : Nat) (h : n ≤ 2 ^ 24) :
    interp (natToF32 n) = Val.num (n : ℚ) := by
  by_cases h0 : n = 0
  · subst h0
    have : interp (natToF32 0) = Val.num 0 := by decide
    rw [this]
    norm_num
  · obtain ⟨e, m, hee, hm, hbits, hval⟩ := natToF32_bits n h0 h
    rw [hbits]
    have hlt31 : (e + 127) * 2 ^ 23 + m < 2 ^ 31 := by
      have : (e + 127) * 2 ^ 23 ≤ 151 * 2 ^ 23 := Nat.mul_le_mul_right _ (by omega)
      have h151 : (151 : ℕ) * 2 ^ 23 + 2 ^ 23 ≤ 2 ^ 31 := by norm_num
      omega
    have hs : ((e + 127) * 2 ^ 23 + m) / 2 ^ 31 % 2 = 0 := by
      rw [Nat.div_eq_of_lt hlt31]
    have hefield : ((e + 127) * 2 ^ 23 + m) / 2 ^ 23 % 2 ^ 8 = e + 127 := by
      rw [Nat.mul_comm (e + 127) (2 ^ 23), Nat.mul_add_div (by positivity),
        Nat.div_eq_of_lt hm, Nat.add_zero]
      have h256 : (2 : ℕ) ^ 8 = 256 := by norm_num
      exact Nat.mod_eq_of_lt (by omega)
    have hmfield : ((e + 127) * 2 ^ 23 + m) % 2 ^ 23 = m := by
      rw [Nat.mul_add_mod']
      exact Nat.mod_eq_of_lt hm
    unfold interp
    simp only [hs, hefield, hmfield]
    rw [if_neg (by omega), if_neg (by omega), if_neg (by omega)]
    congr 1
    rw [Rat.mkRat_eq_div]
    have hcast : (((1 * ((2 ^ 23 + m : ℕ) : ℤ) * 2 ^ (e + 127) : ℤ)) : ℚ)
        = (((2 ^ 23 + m) * 2 ^ (e + 127) : ℕ) : ℚ) := by
      push_cast
      ring
    rw [hcast]
    rw [div_eq_iff (by positivity)]
    have hnat : (2 ^ 23 + m) * 2 ^ (e + 127) = n * 2 ^ 150 := by
      calc (2 ^ 23 + m) * 2 ^ (e + 127) = ((2 ^ 23 + m) * 2 ^ e) * 2 ^ 127 := by ring
        _ = (n * 2 ^ 23) * 2 ^ 127 := by rw [hval]
        _ = n * 2 ^ 150 := by ring
    rw [hnat]
    push_cast
    ring

/-! ## Helper lemmas: decoding an encoded row block -/

theorem length_flatMap_f32 (r : List Nat) : (r.flatMap f32ToBytes).length = 4 * r.length := by
  induction r with
  | nil => rfl
  | cons p t ih =>
    simp only [List.flatMap_cons, List.length_append, ih, f32ToBytes,
      List.length_cons, List.length_nil]
    omega

/-- Decoding the little-endian byte image of a uniform row block recovers the
block exactly. -/
theorem decode_encode_rows (rows : List (List Nat)) (w : Nat) (hw : 0 < w)
    (hrect : ∀ r ∈ rows, r.length = w)
    (hlt : ∀ r ∈ rows, ∀ p ∈ r, p < 2 ^ 32) :
    decodeAcq ((rows.map (fun r => r.flatMap f32ToBytes)).flatten) 0
        ((rows.map (fun r => r.flatMap f32ToBytes)).flatten).length w
      = .ok rows := by
  set data := (rows.map (fun r => r.flatMap f32ToBytes)).flatten with hdata
  have hflat : data = (rows.flatten.map f32ToBytes).flatten := by
    rw [hdata, flatten_map_flatMap, List.flatMap_def]
  have hbyte4 : ∀ c ∈ rows.flatten.map f32ToBytes, c.length = 4 := by
    intro c hc
    rcases List.mem_map.mp hc with ⟨p, _, rfl⟩
    rfl
  have hchunk4 : chunkList 4 data = rows.flatten.map f32ToBytes := by
    rw [hflat]
    exact chunkList_flatten 4 (by omega) _ hbyte4
  have hlen4 : data.length % 4 = 0 := by
    rw [hflat, length_flatten_uniform 4 _ hbyte4]
    omega
  have hfloats : (chunkList 4 data).map bytesToF32 = rows.flatten := by
    rw [hchunk4, List.map_map]
    have : ∀ p ∈ rows.flatten, (bytesToF32 ∘ f32ToBytes) p = id p := by
      intro p hp
      rcases List.mem_flatten.mp hp with ⟨r, hr, hpr⟩
      simpa using bytes_f32_id p (hlt r hr p hpr)
    rw [List.map_congr_left this, List.map_id]
  have hflen : rows.flatten.length = rows.length * w :=
    length_flatten_uniform w rows hrect
  have hmodw : ((chunkList 4 data).map bytesToF32).length % w = 0 := by
    rw [hfloats, hflen]
    exact Nat.mul_mod_left rows.length w
  unfold decodeAcq
  rw [List.drop_zero, Nat.sub_zero, List.take_length]
  rw [if_neg (by omega), if_pos ⟨hw, hmodw⟩, hfloats]
  rw [chunkList_flatten w hw rows hrect]

/-! ## Helper lemmas: structure of the encoded grid rows -/

theorem rowsOfLineAux_length (y : Nat) : ∀ (line : List (List Nat)) (x0 : Nat),
    (rowsOfLineAux y x0 line).length = line.length := by
  intro line
  induction line with
  | nil => intro x0; rfl
  | cons cell rest ih =>
    intro x0
    simp only [rowsOfLineAux, List.length_cons, ih]

theorem gridRowsAux_length (W : Nat) : ∀ (g : List (List (List Nat))) (y0 : Nat),
    (∀ line ∈ g, line.length = W) → (gridRowsAux y0 g).length = g.length * W := by
  intro g
  induction g with
  | nil => intro y0 _; simp [gridRowsAux]
  | cons line rest ih =>
    intro y0 h
    simp only [gridRowsAux, List.length_append, rowsOfLineAux_length,
      h line (List.mem_cons_self line rest),
      ih (y0 + 1) (fun l hl => h l (List.mem_cons_of_mem _ hl)), List.length_cons]
    ring

theorem mem_rowsOfLineAux (y : Nat) : ∀ (line : List (List Nat)) (x0 : Nat)
    (r : List Nat), r ∈ rowsOfLineAux y x0 line →
    ∃ i cell, i < line.length ∧ cell ∈ line ∧ r = rowOfCell (x0 + i) y cell := by
  intro line
  induction line with
  | nil => intro x0 r h; simp [rowsOfLineAux] at h
  | cons cell rest ih =>
    intro x0 r h
    rcases List.mem_cons.mp h with rfl | h
    · exact ⟨0, cell, by simp, List.mem_cons_self _ _, by simp⟩
    · obtain ⟨i, c, hi, hc, rfl⟩ := ih (x0 + 1) r h
      exact ⟨i + 1, c, by simp; omega, List.mem_cons_of_mem _ hc, by
        congr 1
        omega⟩

theorem mem_gridRowsAux : ∀ (g : List (List (List Nat))) (y0 : Nat) (r : List Nat),
    r ∈ gridRowsAux y0 g →
    ∃ j line i cell, j < g.length ∧ line ∈ g ∧ i < line.length ∧ cell ∈ line
      ∧ r = rowOfCell i (y0 + j) cell := by
  intro g
  induction g with
  | nil => intro y0 r h; simp [gridRowsAux] at h
  | cons line rest ih =>
    intro y0 r h
    rcases List.mem_append.mp h with h | h
    · obtain ⟨i, cell, hi, hc, rfl⟩ := mem_rowsOfLineAux y0 line 0 r h
      exact ⟨0, line, i, cell, by simp, List.mem_cons_self _ _, hi, hc, by simp⟩
    · obtain ⟨j, l, i, cell, hj, hl, hi, hc, rfl⟩ := ih (y0 + 1) r h
      refine ⟨j + 1, l, i, cell, by simp; omega, List.mem_cons_of_mem _ hl, hi, hc, ?_⟩
      congr 1
      omega

theorem rowOfCell_mem_line (y : Nat) : ∀ (line : List (List Nat)) (x0 i : Nat),
    i < line.length →
    ∃ cell, cell ∈ line ∧ rowOfCell (x0 + i) y cell ∈ rowsOfLineAux y x0 line := by
  intro line
  induction line with
  | nil => intro x0 i h; simp at h
  | cons cell rest ih =>
    intro x0 i h
    cases i with
    | zero => exact ⟨cell, List.mem_cons_self _ _, by simp [rowsOfLineAux]⟩
    | succ i =>
      obtain ⟨c, hc, hmem⟩ := ih (x0 + 1) i (by simp at h; omega)
      refine ⟨c, List.mem_cons_of_mem _ hc, ?_⟩
      have : x0 + (i + 1) = x0 + 1 + i := by omega
      rw [this]
      exact List.mem_cons_of_mem _ hmem

theorem rowOfCell_mem_grid (W : Nat) : ∀ (g : List (List (List Nat))) (y0 j i : Nat),
    j < g.length → (∀ line ∈ g, line.length = W) → i < W →
    ∃ cell, rowOfCell i (y0 + j) cell ∈ gridRowsAux y0 g := by
  intro g
  induction g with
  | nil => intro y0 j i hj _ _; simp at hj
  | cons line rest ih =>
    intro y0 j i hj hW hi
    cases j with
    | zero =>
      obtain ⟨cell, _, hmem⟩ := rowOfCell_mem_line y0 line 0 i
        (by rw [hW line (List.mem_cons_self _ _)]; exact hi)
      refine ⟨cell, ?_⟩
      simp only [gridRowsAux, Nat.add_zero]
      exact List.mem_append_left _ (by simpa using hmem)
    | succ j =>
      obtain ⟨cell, hmem⟩ := ih (y0 + 1) j i (by simp at hj; omega)
        (fun l hl => hW l (List.mem_cons_of_mem _ hl)) hi
      refine ⟨cell, ?_⟩
      simp only [gridRowsAux]
      refine List.mem_append_right _ ?_
      have : y0 + (j + 1) = y0 + 1 + j := by omega
      rw [this]
      exact hmem

theorem rowsOfLineAux_drop3 (y : Nat) : ∀ (line : List (List Nat)) (x0 : Nat),
    (rowsOfLineAux y x0 line).map (fun r => (r.map interp).drop 3)
      = line.map (fun cell => cell.map interp) := by
  intro line
  induction line with
  | nil => intro x0; rfl
  | cons cell rest ih =>
    intro x0
    simp only [rowsOfLineAux, List.map_cons, ih, rowOfCell]
    rfl

theorem gridRowsAux_drop3 : ∀ (g : List (List (List Nat))) (y0 : Nat),
    (gridRowsAux y0 g).map (fun r => (r.map interp).drop 3)
      = (g.map (fun line => line.map (fun cell => cell.map interp))).flatten := by
  intro g
  induction g with
  | nil => intro y0; rfl
  | cons line rest ih =>
    intro y0
    simp only [gridRowsAux, List.map_append, List.map_cons, List.flatten_cons,
      rowsOfLineAux_drop3, ih]

theorem isNanB_eq_true_iff (v : Val) : isNanB v = true ↔ v = .nan := by
  cases v <;> simp [isNanB]

/-! ## Claim C4: round-trip decode -/

/-- C4: encoding a complete `(x, y, channel-values)` grid into the raw
float32 row layout `[x, y, z, c1..cN]` (row-major over `(y, x)`, four
little-endian bytes per float), then decoding, reproduces the rows with
bit-exact patterns, and reshaping the decoded stream with no fill value
succeeds and reproduces the original grid of channel values exactly. -/
theorem C4_round_trip (g : List (List (List Nat))) (H W C : ℕ)
    (hH : g.length = H) (hW : ∀ line ∈ g, line.length = W)
    (hC : ∀ line ∈ g, ∀ cell ∈ line, cell.length = C)
    (hfin : ∀ line ∈ g, ∀ cell ∈ line, ∀ p ∈ cell, p < 2 ^ 32 ∧ interp p ≠ .nan)
    (hH1 : 0 < H) (hW1 : 0 < W) (hHb : H ≤ 2 ^ 24) (hWb : W ≤ 2 ^ 24)
    (hC1 : 0 < C) :
    decodeAcq (encodeGrid g) 0 (encodeGrid g).length (C + 3)
      = .ok (encodeGridRows g)
    ∧ reshapeChecked ((encodeGridRows g).map (fun r => r.map interp)) none
        = .ok (g.map (fun line => line.map (fun cell => cell.map interp))) := by
  have hshape : ∀ r ∈ encodeGridRows g, ∃ i j cell, i < W ∧ j < H ∧
      (∃ line, line ∈ g ∧ cell ∈ line) ∧ r = rowOfCell i j cell := by
    intro r hr
    obtain ⟨j, line, i, cell, hj, hline, hi, hcell, hreq⟩ :=
      mem_gridRowsAux g 0 r hr
    refine ⟨i, j, cell, ?_, ?_, ⟨line, hline, hcell⟩, ?_⟩
    · rw [hW line hline] at hi
      exact hi
    · omega
    · rw [hreq, Nat.zero_add]
  have hrect : ∀ r ∈ encodeGridRows g, r.length = C + 3 := by
    intro r hr
    obtain ⟨i, j, cell, _, _, ⟨line, hline, hcell⟩, rfl⟩ := hshape r hr
    simp only [rowOfCell, List.length_cons, hC line hline cell hcell]
  have hlt32 : ∀ r ∈ encodeGridRows g, ∀ p ∈ r, p < 2 ^ 32 := by
    intro r hr p hp
    obtain ⟨i, j, cell, hi, hj, ⟨line, hline, hcell⟩, rfl⟩ := hshape r hr
    simp only [rowOfCell, List.mem_cons] at hp
    rcases hp with rfl | rfl | rfl | hp
    · exact natToF32_lt i (by omega)
    · exact natToF32_lt j (by omega)
    · exact natToF32_lt 0 (Nat.zero_le _)
    · exact (hfin line hline cell hcell p hp).1
  have hdec : decodeAcq (encodeGrid g) 0 (encodeGrid g).length (C + 3)
      = .ok (encodeGridRows g) :=
    decode_encode_rows (encodeGridRows g) (C + 3) (by omega) hrect hlt32
  set arr := (encodeGridRows g).map (fun r => r.map interp) with harr_def
  have harrlen : arr.length = H * W := by
    rw [harr_def, List.length_map]
    rw [show encodeGridRows g = gridRowsAux 0 g from rfl]
    rw [gridRowsAux_length W g 0 hW, hH]
  have hHWpos : 0 < H * W := Nat.mul_pos hH1 hW1
  have harrne : arr ≠ [] := by
    intro hnil
    rw [hnil] at harrlen
    simp only [List.length_nil] at harrlen
    omega
  have harrrect : ∀ r ∈ arr, r.length = 3 + C := by
    intro r hr
    rw [harr_def] at hr
    rcases List.mem_map.mp hr with ⟨r0, hr0, rfl⟩
    rw [List.length_map]
    rw [hrect r0 hr0]
    omega
  have hcol0mem : ∀ v ∈ col 0 arr, ∃ x : ℕ, x < W ∧ v = Val.num (x : ℚ) := by
    intro v hv
    unfold col at hv
    rcases List.mem_map.mp hv with ⟨r, hr, rfl⟩
    rw [harr_def] at hr
    rcases List.mem_map.mp hr with ⟨r0, hr0, rfl⟩
    obtain ⟨i, j, cell, hi, hj, _, rfl⟩ := hshape r0 hr0
    refine ⟨i, hi, ?_⟩
    simp only [rowOfCell, List.map_cons, List.getD_cons_zero]
    exact interp_natToF32 i (by omega)
  have hcol1mem : ∀ v ∈ col 1 arr, ∃ y : ℕ, y < H ∧ v = Val.num (y : ℚ) := by
    intro v hv
    unfold col at hv
    rcases List.mem_map.mp hv with ⟨r, hr, rfl⟩
    rw [harr_def] at hr
    rcases List.mem_map.mp hr with ⟨r0, hr0, rfl⟩
    obtain ⟨i, j, cell, hi, hj, _, rfl⟩ := hshape r0 hr0
    refine ⟨j, hj, ?_⟩
    simp only [rowOfCell, List.map_cons, List.getD_cons_succ, List.getD_cons_zero]
    exact interp_natToF32 j (by omega)
  have hcol0att : Val.num ((W - 1 : ℕ) : ℚ) ∈ col 0 arr := by
    obtain ⟨cell, hmem⟩ := rowOfCell_mem_grid W g 0 0 (W - 1) (by omega) hW (by omega)
    unfold col
    refine List.mem_map.mpr ⟨(rowOfCell (W - 1) (0 + 0) cell).map interp, ?_, ?_⟩
    · rw [harr_def]
      exact List.mem_map.mpr ⟨_, hmem, rfl⟩
    · simp only [rowOfCell, List.map_cons, List.getD_cons_zero]
      exact interp_natToF32 (W - 1) (by omega)
  have hcol1att : Val.num ((H - 1 : ℕ) : ℚ) ∈ col 1 arr := by
    obtain ⟨cell, hmem⟩ := rowOfCell_mem_grid W g 0 (H - 1) 0 (by omega) hW (by omega)
    unfold col
    refine List.mem_map.mpr ⟨(rowOfCell 0 (0 + (H - 1)) cell).map interp, ?_, ?_⟩
    · rw [harr_def]
      exact List.mem_map.mpr ⟨_, hmem, rfl⟩
    · simp only [rowOfCell, List.map_cons, List.getD_cons_succ, List.getD_cons_zero]
      rw [Nat.zero_add]
      exact interp_natToF32 (H - 1) (by omega)
  have hcolne : ∀ jdx : Nat, col jdx arr ≠ [] := by
    intro jdx hcon
    have := congrArg List.length hcon
    unfold col at this
    rw [List.length_map] at this
    simp only [List.length_nil] at this
    omega
  have hmx : vmaxList (col 0 arr) = Val.num ((W - 1 : ℕ) : ℚ) := by
    obtain ⟨mxx, hmxx, hmxxmem, hmxxbd⟩ := vmax_nat (col 0 arr) (hcolne 0)
      (fun v hv => (hcol0mem v hv).elim (fun x hx => ⟨x, hx.2⟩))
    obtain ⟨x, hxW, hxv⟩ := hcol0mem _ hmxxmem
    have hmx_eq : (mxx : ℚ) = (x : ℚ) := Val.num.inj hxv
    have hmx_eq' : mxx = x := by exact_mod_cast hmx_eq
    have h2 : W - 1 ≤ mxx := hmxxbd (W - 1) hcol0att
    have : mxx = W - 1 := by omega
    rw [← this]
    exact hmxx
  have hmy : vmaxList (col 1 arr) = Val.num ((H - 1 : ℕ) : ℚ) := by
    obtain ⟨myy, hmyy, hmyymem, hmyybd⟩ := vmax_nat (col 1 arr) (hcolne 1)
      (fun v hv => (hcol1mem v hv).elim (fun y hy => ⟨y, hy.2⟩))
    obtain ⟨y, hyH, hyv⟩ := hcol1mem _ hmyymem
    have hmy_eq : (myy : ℚ) = (y : ℚ) := Val.num.inj hyv
    have hmy_eq' : myy = y := by exact_mod_cast hmy_eq
    have h2 : H - 1 ≤ myy := hmyybd (H - 1) hcol1att
    have : myy = H - 1 := by omega
    rw [← this]
    exact hmyy
  have hnan : hasNan arr = false := by
    rw [Bool.eq_false_iff]
    intro hcon
    unfold hasNan at hcon
    rw [List.any_eq_true] at hcon
    obtain ⟨r, hr, hrany⟩ := hcon
    rw [List.any_eq_true] at hrany
    obtain ⟨v, hv, hvnan⟩ := hrany
    rw [isNanB_eq_true_iff] at hvnan
    subst hvnan
    rw [harr_def] at hr
    rcases List.mem_map.mp hr with ⟨r0, hr0, rfl⟩
    rcases List.mem_map.mp hv with ⟨p, hp, hpnan⟩
    obtain ⟨i, j, cell, hi, hj, ⟨line, hline, hcell⟩, rfl⟩ := hshape r0 hr0
    simp only [rowOfCell, List.mem_cons] at hp
    rcases hp with rfl | rfl | rfl | hp
    · rw [interp_natToF32 i (by omega)] at hpnan
      simp at hpnan
    · rw [interp_natToF32 j (by omega)] at hpnan
      simp at hpnan
    · rw [interp_natToF32 0 (Nat.zero_le _)] at hpnan
      simp at hpnan
    · exact (hfin line hline cell hcell p hp).2 hpnan
  have hcnt : arr.length = ((W - 1) + 1) * ((H - 1) + 1) := by
    have hw' : (W - 1) + 1 = W := by omega
    have hh' : (H - 1) + 1 = H := by omega
    rw [hw', hh', harrlen, Nat.mul_comm]
  have hmiss : is_missing_values arr = false :=
    is_missing_false arr (W - 1) (H - 1) hmx hmy hcnt hnan
  have hxyzc := xyzc_to_arr_complete arr C (W - 1) (H - 1) none harrne harrrect
    hC1 hmx hmy hcnt
  have hdrop : arr.map (fun r => r.drop 3)
      = (g.map (fun line => line.map (fun cell => cell.map interp))).flatten := by
    rw [harr_def, List.map_map]
    exact gridRowsAux_drop3 g 0
  have hchunk : chunkList ((W - 1) + 1) (arr.map (fun r => r.drop 3))
      = g.map (fun line => line.map (fun cell => cell.map interp)) := by
    have hw' : (W - 1) + 1 = W := by omega
    rw [hw', hdrop]
    refine chunkList_flatten W hW1 _ ?_
    intro c hc
    rcases List.mem_map.mp hc with ⟨line, hline, rfl⟩
    rw [List.length_map]
    exact hW line hline
  refine ⟨hdec, ?_⟩
  unfold reshapeChecked
  rw [hmiss]
  simp only [Option.isNone_none, Bool.and_false, Bool.false_eq_true, if_false]
  rw [hxyzc, hchunk]

/-- C4 (witness): the 1×1 grid with the single channel pattern `0`
round-trips through encode, decode and reshape. -/
theorem C4_witness :
    decodeAcq (encodeGrid [[[0]]]) 0 (encodeGrid [[[0]]]).length (1 + 3)
      = .ok (encodeGridRows [[[0]]])
    ∧ reshapeChecked ((encodeGridRows [[[0]]]).map (fun r => r.map interp)) none
        = .ok ([[[0]]].map (fun line => line.map (fun cell => cell.map interp))) :=
  C4_round_trip [[[0]]] 1 1 1 (by decide) (by decide) (by decide)
    (by decide) (by decide) (by decide) (by decide) (by decide) (by decide)

end Imcconv
